import Mathlib

set_option linter.unusedSectionVars false
set_option maxRecDepth 8000

/-!
Verification of the partial-order inference repository (`po_inference`).

The development shallowly embeds the order-algebra utilities of
`src/utils/k_dimension.py` (class `KDimensionUtils`) and the posterior
summarization logic of `src/inference/po_inference.py` (`run_inference`).
Square 0/1 matrices are embedded as total functions `Nat → Nat → Nat`;
an `n × n` matrix carries its payload on indices below `n`, and every
constructor below writes `0` outside that window.

The helper module `src/utils/basic_utils.py` (`BasicUtils`) is not part of
the sources; its three functions used here (`transitive_closure`,
`transitive_reduction`, `generate_all_linear_extensions`) are modelled from
the specification, as marked in their doc comments.  The MCMC simulation
(`mcmc_partial_order`) is likewise absent and is treated as an abstract
function parameter of `run_inference`.
-/

namespace POInf

/-- Square integer matrices, embedded as total functions on `Nat` indices. -/
abbrev Mat : Type := Nat → Nat → Nat

/-- The proposition `chainP M i l j`: successive edges of `M` link `i`
through the intermediate points listed in `l` to `j`. -/
def chainP (M : Mat) : Nat → List Nat → Nat → Prop
  | i, [], j => M i j ≠ 0
  | i, k :: t, j => M i k ≠ 0 ∧ chainP M k t j

/-- One closure round: keep the relation and add all two-step compositions
through an intermediate point below `n`. -/
def closeStep (n : Nat) (M : Mat) : Mat := fun i j =>
  if M i j ≠ 0 ∨ ∃ k, k ∈ List.range n ∧ M i k ≠ 0 ∧ M k j ≠ 0 then 1 else 0

/-- Modelled from the spec: `BasicUtils.transitive_closure` (the file
`src/utils/basic_utils.py` is absent from the sources) returns the smallest
transitive relation containing `h`, i.e. the reachability closure over the
directed graph `h` defines.  Here it is computed by `n` rounds of doubling
compositions, which covers every path through intermediate points below `n`. -/
def transitive_closure (n : Nat) (M : Mat) : Mat :=
  (closeStep n)^[n] M

theorem chainP_nil {M : Mat} {i j : Nat} : chainP M i [] j ↔ M i j ≠ 0 := Iff.rfl

theorem chainP_cons {M : Mat} {i k j : Nat} {t : List Nat} :
    chainP M i (k :: t) j ↔ M i k ≠ 0 ∧ chainP M k t j := Iff.rfl

theorem chainP_append {M : Mat} (l₁ : List Nat) {l₂ : List Nat} {i k j : Nat} :
    chainP M i (l₁ ++ k :: l₂) j ↔ chainP M i l₁ k ∧ chainP M k l₂ j := by
  induction l₁ generalizing i with
  | nil => simp [chainP, and_assoc]
  | cons a t ih => simp [chainP, ih, and_assoc]

theorem closeStep_val (n : Nat) (M : Mat) (i j : Nat) :
    closeStep n M i j = 0 ∨ closeStep n M i j = 1 := by
  unfold closeStep
  split <;> simp

theorem closeStep_of_ne (n : Nat) {M : Mat} {i j : Nat} (h : M i j ≠ 0) :
    closeStep n M i j = 1 := by
  unfold closeStep
  rw [if_pos (Or.inl h)]

theorem iterate_closeStep_of_ne (n t : Nat) :
    ∀ {M : Mat} {i j : Nat}, M i j ≠ 0 → ((closeStep n)^[t] M) i j ≠ 0 := by
  induction t with
  | zero => intro M i j h; simpa using h
  | succ t ih =>
    intro M i j h
    rw [Function.iterate_succ_apply]
    exact ih (by rw [closeStep_of_ne n h]; exact one_ne_zero)

theorem transitive_closure_of_ne {n : Nat} {M : Mat} {i j : Nat} (h : M i j ≠ 0) :
    transitive_closure n M i j ≠ 0 :=
  iterate_closeStep_of_ne n n h

theorem transitive_closure_val {n : Nat} (hn : n ≠ 0) (M : Mat) (i j : Nat) :
    transitive_closure n M i j = 0 ∨ transitive_closure n M i j = 1 := by
  obtain ⟨t, rfl⟩ := Nat.exists_eq_succ_of_ne_zero hn
  unfold transitive_closure
  rw [Function.iterate_succ_apply']
  exact closeStep_val _ _ i j

/-- Soundness: a nonzero closure entry comes from a chain whose intermediate
points all lie below `n`. -/
theorem iterate_closeStep_sound (n : Nat) :
    ∀ (t : Nat) {M : Mat} {i j : Nat}, ((closeStep n)^[t] M) i j ≠ 0 →
      ∃ l : List Nat, (∀ x ∈ l, x < n) ∧ chainP M i l j := by
  intro t
  induction t with
  | zero =>
    intro M i j h
    exact ⟨[], by simp, h⟩
  | succ t ih =>
    intro M i j h
    rw [Function.iterate_succ_apply'] at h
    by_cases hc : ((closeStep n)^[t] M) i j ≠ 0 ∨
        ∃ k, k ∈ List.range n ∧ ((closeStep n)^[t] M) i k ≠ 0 ∧ ((closeStep n)^[t] M) k j ≠ 0
    · rcases hc with hd | ⟨k, hk, h1, h2⟩
      · exact ih hd
      · obtain ⟨l₁, hl₁, hc₁⟩ := ih h1
        obtain ⟨l₂, hl₂, hc₂⟩ := ih h2
        refine ⟨l₁ ++ k :: l₂, ?_, (chainP_append l₁).2 ⟨hc₁, hc₂⟩⟩
        intro x hx
        rcases List.mem_append.1 hx with hx | hx
        · exact hl₁ x hx
        · rcases List.mem_cons.1 hx with rfl | hx
          · exact List.mem_range.1 hk
          · exact hl₂ x hx
    · exfalso
      apply h
      simp only [closeStep]
      rw [if_neg hc]

theorem transitive_closure_sound {n : Nat} {M : Mat} {i j : Nat}
    (h : transitive_closure n M i j ≠ 0) :
    ∃ l : List Nat, (∀ x ∈ l, x < n) ∧ chainP M i l j :=
  iterate_closeStep_sound n n h

/-- Coverage: `t` closure rounds capture every chain with at most `2 ^ t`
edges whose intermediate points lie below `n`. -/
theorem iterate_closeStep_cover (n : Nat) :
    ∀ (t : Nat) (l : List Nat) {M : Mat} {i j : Nat}, (∀ x ∈ l, x < n) →
      chainP M i l j → l.length + 1 ≤ 2 ^ t → ((closeStep n)^[t] M) i j ≠ 0 := by
  intro t
  induction t with
  | zero =>
    intro l M i j _ hc hl
    have : l = [] := by
      cases l with
      | nil => rfl
      | cons a t => simp at hl
    subst this
    simpa using hc
  | succ t ih =>
    intro l M i j hmem hc hl
    rw [Function.iterate_succ_apply']
    by_cases hsplit : l.length + 1 ≤ 2 ^ t
    · have := ih l hmem hc hsplit
      rw [closeStep_of_ne n this]
      exact one_ne_zero
    · push_neg at hsplit
      have hpos : 2 ^ t - 1 < l.length := by
        have h1 : 1 ≤ 2 ^ t := Nat.one_le_two_pow
        omega
      set m := 2 ^ t - 1 with hm
      have hdecomp : l = l.take m ++ l[m] :: l.drop (m + 1) := by
        rw [← List.drop_eq_getElem_cons hpos, List.take_append_drop]
      have hc' : chainP M i (l.take m ++ l[m] :: l.drop (m + 1)) j := by
        rw [← hdecomp]
        exact hc
      have hk := (chainP_append (l.take m)).1 hc'
      have hkn : l[m] ∈ l := List.getElem_mem hpos
      have hlen1 : (l.take m).length + 1 ≤ 2 ^ t := by
        have : (l.take m).length = m := by
          rw [List.length_take]
          omega
        rw [this]
        have h1 : 1 ≤ 2 ^ t := Nat.one_le_two_pow
        omega
      have hlen2 : (l.drop (m + 1)).length + 1 ≤ 2 ^ t := by
        rw [List.length_drop]
        have h2 : 2 ^ (t + 1) = 2 ^ t + 2 ^ t := by
          rw [pow_succ]
          omega
        omega
      have h1 := ih (l.take m) (fun x hx => hmem x (List.mem_of_mem_take hx)) hk.1 hlen1
      have h2 := ih (l.drop (m + 1)) (fun x hx => hmem x (List.mem_of_mem_drop hx)) hk.2 hlen2
      unfold closeStep
      rw [if_pos (Or.inr ⟨l[m], List.mem_range.2 (hmem _ hkn), h1, h2⟩)]
      exact one_ne_zero

/-- In a list that is not duplicate-free, some element occurs twice. -/
theorem exists_dup_decomp {β : Type} {l : List β} (h : ¬ l.Nodup) :
    ∃ (a : β) (l₁ l₂ l₃ : List β), l = l₁ ++ a :: l₂ ++ a :: l₃ := by
  induction l with
  | nil => exact absurd List.nodup_nil h
  | cons x t ih =>
    by_cases hx : x ∈ t
    · obtain ⟨s, u, rfl⟩ := List.append_of_mem hx
      exact ⟨x, [], s, u, rfl⟩
    · have ht : ¬ t.Nodup := by
        intro hnd
        exact h (List.nodup_cons.2 ⟨hx, hnd⟩)
      obtain ⟨a, l₁, l₂, l₃, rfl⟩ := ih ht
      exact ⟨a, x :: l₁, l₂, l₃, rfl⟩

theorem chainP_shorten_aux {M : Mat} :
    ∀ (n : Nat) (l : List Nat), l.length ≤ n → ∀ {i j : Nat}, chainP M i l j →
      ∃ l' : List Nat, l'.Nodup ∧ (∀ x ∈ l', x ∈ l) ∧ chainP M i l' j := by
  intro n
  induction n with
  | zero =>
    intro l hl i j hc
    have : l = [] := List.length_eq_zero.1 (Nat.le_zero.1 hl)
    subst this
    exact ⟨[], List.nodup_nil, by simp, hc⟩
  | succ n ih =>
    intro l hl i j hc
    by_cases hd : l.Nodup
    · exact ⟨l, hd, fun x hx => hx, hc⟩
    · obtain ⟨a, l₁, l₂, l₃, rfl⟩ := exists_dup_decomp hd
      simp only [List.cons_append, List.append_assoc] at hc
      have h1 := (chainP_append l₁).1 hc
      have h2 := (chainP_append l₂).1 h1.2
      have hcut : chainP M i (l₁ ++ a :: l₃) j := (chainP_append l₁).2 ⟨h1.1, h2.2⟩
      have hle : (l₁ ++ a :: l₃).length ≤ n := by
        simp only [List.length_append, List.length_cons] at hl ⊢
        omega
      obtain ⟨l', hnd, hsub, hc'⟩ := ih (l₁ ++ a :: l₃) hle hcut
      refine ⟨l', hnd, fun x hx => ?_, hc'⟩
      have := hsub x hx
      simp only [List.mem_append, List.mem_cons] at this ⊢
      tauto

/-- Chain shortening: any chain can be replaced by one whose intermediate
list is duplicate-free and drawn from the original intermediates. -/
theorem chainP_shorten {M : Mat} (l : List Nat) {i j : Nat} (hc : chainP M i l j) :
    ∃ l' : List Nat, l'.Nodup ∧ (∀ x ∈ l', x ∈ l) ∧ chainP M i l' j :=
  chainP_shorten_aux l.length l le_rfl hc

/-- Completeness: every chain through intermediate points below `n` is
captured by the transitive closure. -/
theorem transitive_closure_complete {n : Nat} {M : Mat} {i j : Nat}
    {l : List Nat} (hmem : ∀ x ∈ l, x < n) (hc : chainP M i l j) :
    transitive_closure n M i j ≠ 0 := by
  obtain ⟨l', hnd, hsub, hc'⟩ := chainP_shorten l hc
  have hmem' : ∀ x ∈ l', x < n := fun x hx => hmem x (hsub x hx)
  have hlen : l'.length ≤ n := by
    have h1 : l'.length = l'.toFinset.card := (List.toFinset_card_of_nodup hnd).symm
    have h2 : l'.toFinset ⊆ Finset.range n := by
      intro x hx
      exact Finset.mem_range.2 (hmem' x (List.mem_toFinset.1 hx))
    calc l'.length = l'.toFinset.card := h1
      _ ≤ (Finset.range n).card := Finset.card_le_card h2
      _ = n := Finset.card_range n
  have hbound : l'.length + 1 ≤ 2 ^ n := by
    have := Nat.lt_two_pow n
    omega
  exact iterate_closeStep_cover n n l' hmem' hc' hbound

/-- Transitivity of the closure through an intermediate point below `n`. -/
theorem transitive_closure_trans {n : Nat} {M : Mat} {i k j : Nat}
    (h1 : transitive_closure n M i k ≠ 0) (hk : k < n)
    (h2 : transitive_closure n M k j ≠ 0) :
    transitive_closure n M i j ≠ 0 := by
  obtain ⟨l₁, hm₁, hc₁⟩ := transitive_closure_sound h1
  obtain ⟨l₂, hm₂, hc₂⟩ := transitive_closure_sound h2
  refine transitive_closure_complete (l := l₁ ++ k :: l₂) ?_ ((chainP_append l₁).2 ⟨hc₁, hc₂⟩)
  intro x hx
  rcases List.mem_append.1 hx with hx | hx
  · exact hm₁ x hx
  · rcases List.mem_cons.1 hx with rfl | hx
    · exact hk
    · exact hm₂ x hx

/-- The closure leaves a 0/1-valued matrix fixed when the matrix is already
transitive through intermediate points below `n`. -/
theorem transitive_closure_fix {n : Nat} {M : Mat}
    (hval : ∀ i j, M i j = 0 ∨ M i j = 1)
    (htrans : ∀ i k j, k < n → M i k ≠ 0 → M k j ≠ 0 → M i j ≠ 0) :
    transitive_closure n M = M := by
  have hstep : closeStep n M = M := by
    funext i j
    unfold closeStep
    by_cases hc : M i j ≠ 0 ∨ ∃ k, k ∈ List.range n ∧ M i k ≠ 0 ∧ M k j ≠ 0
    · rw [if_pos hc]
      have : M i j ≠ 0 := by
        rcases hc with h | ⟨k, hk, h1, h2⟩
        · exact h
        · exact htrans i k j (List.mem_range.1 hk) h1 h2
      rcases hval i j with h0 | h1
      · exact absurd h0 this
      · exact h1.symm
    · rw [if_neg hc]
      push_neg at hc
      exact hc.1.symm
  exact Function.iterate_fixed hstep n

section Extensions

variable {α : Type} [DecidableEq α]

/-- An extension list `e` respects every precedence `h i j ≠ 0` between the
positions `i, j` of `items`: the `i`-th item occurs in `e` before the `j`-th. -/
def consistentExt (h : Mat) (items e : List α) : Prop :=
  ∀ i (hi : i < items.length), ∀ j (hj : j < items.length), h i j ≠ 0 →
    e.indexOf (items.get ⟨i, hi⟩) < e.indexOf (items.get ⟨j, hj⟩)

instance consistentExt.decidable (h : Mat) (items e : List α) :
    Decidable (consistentExt h items e) := by
  unfold consistentExt
  infer_instance

/-- Modelled from the spec: `BasicUtils.generate_all_linear_extensions` (the
file `src/utils/basic_utils.py` is absent from the sources) produces all
permutations of `items` consistent with `h`, i.e. respecting every precedence
recorded in `h`. -/
def generate_all_linear_extensions (h : Mat) (items : List α) : List (List α) :=
  items.permutations.filter fun e => decide (consistentExt h items e)

theorem mem_linear_extensions {h : Mat} {items e : List α} :
    e ∈ generate_all_linear_extensions h items ↔
      e.Perm items ∧ consistentExt h items e := by
  simp [generate_all_linear_extensions, List.mem_filter, List.mem_permutations]

/-- Embeds `KDimensionUtils.realizer_to_partial_order_matrix` (file
`src/utils/k_dimension.py`, explicit-`items` branch): the entry at `(i, j)`
is `1` exactly when `i ≠ j` and every extension in the realizer places the
`i`-th item before the `j`-th (Python's `all(...)`, vacuously true for an
empty realizer).  Entries outside the `n × n` window are `0`. -/
def realizerMatrix (realizer : List (List α)) (items : List α) : Mat := fun i j =>
  match items[i]?, items[j]? with
  | some x, some y =>
    if i ≠ j ∧ ∀ e, e ∈ realizer → e.indexOf x < e.indexOf y then 1 else 0
  | _, _ => 0

theorem realizerMatrix_val (realizer : List (List α)) (items : List α) (i j : Nat) :
    realizerMatrix realizer items i j = 0 ∨ realizerMatrix realizer items i j = 1 := by
  unfold realizerMatrix
  rcases items[i]? with _ | x
  · exact Or.inl rfl
  · rcases items[j]? with _ | y
    · exact Or.inl rfl
    · by_cases hc : i ≠ j ∧ ∀ e, e ∈ realizer → e.indexOf x < e.indexOf y
      · exact Or.inr (if_pos hc)
      · exact Or.inl (if_neg hc)

theorem realizerMatrix_diag (realizer : List (List α)) (items : List α) (i : Nat) :
    realizerMatrix realizer items i i = 0 := by
  unfold realizerMatrix
  rcases items[i]? with _ | x
  · rfl
  · exact if_neg (fun hc => hc.1 rfl)

theorem realizerMatrix_eq_one {realizer : List (List α)} {items : List α} {i j : Nat}
    {x y : α} (hx : items[i]? = some x) (hy : items[j]? = some y) (hij : i ≠ j)
    (hall : ∀ e, e ∈ realizer → e.indexOf x < e.indexOf y) :
    realizerMatrix realizer items i j = 1 := by
  unfold realizerMatrix
  rw [hx, hy]
  exact if_pos ⟨hij, hall⟩

theorem realizerMatrix_ne_elim {realizer : List (List α)} {items : List α} {i j : Nat}
    (h : realizerMatrix realizer items i j ≠ 0) :
    ∃ x y, items[i]? = some x ∧ items[j]? = some y ∧ i ≠ j ∧
      ∀ e, e ∈ realizer → e.indexOf x < e.indexOf y := by
  unfold realizerMatrix at h
  rcases hx : items[i]? with _ | x <;> rw [hx] at h
  · exact absurd rfl h
  · rcases hy : items[j]? with _ | y <;> rw [hy] at h
    · exact absurd rfl h
    · by_cases hc : i ≠ j ∧ ∀ e, e ∈ realizer → e.indexOf x < e.indexOf y
      · exact ⟨x, y, rfl, rfl, hc.1, hc.2⟩
      · exact absurd (if_neg hc) (fun h0 => h h0)

/-- The realizer matrix only looks at which extensions belong to the
realizer, so lists with the same members produce the same matrix. -/
theorem realizerMatrix_congr {r₁ r₂ : List (List α)} (items : List α)
    (h : ∀ e, e ∈ r₁ ↔ e ∈ r₂) :
    realizerMatrix r₁ items = realizerMatrix r₂ items := by
  funext i j
  unfold realizerMatrix
  rcases items[i]? with _ | x
  · rfl
  · rcases items[j]? with _ | y
    · rfl
    · have hiff : (∀ e, e ∈ r₁ → e.indexOf x < e.indexOf y) ↔
          (∀ e, e ∈ r₂ → e.indexOf x < e.indexOf y) := by
        constructor <;> intro ha e he
        · exact ha e ((h e).2 he)
        · exact ha e ((h e).1 he)
      exact if_congr (and_congr_right' hiff) rfl rfl

/-- A nonempty realizer of item lists yields a matrix that is transitive
through any intermediate point. -/
theorem realizerMatrix_trans {realizer : List (List α)} {items : List α}
    (hne : realizer ≠ []) {i k j : Nat}
    (h1 : realizerMatrix realizer items i k ≠ 0)
    (h2 : realizerMatrix realizer items k j ≠ 0) :
    realizerMatrix realizer items i j ≠ 0 := by
  obtain ⟨x, y, hx, hy, hik, hall1⟩ := realizerMatrix_ne_elim h1
  obtain ⟨y', z, hy', hz, hkj, hall2⟩ := realizerMatrix_ne_elim h2
  rw [hy] at hy'
  injection hy' with hy'
  subst hy'
  obtain ⟨e₀, he₀⟩ := List.exists_mem_of_ne_nil realizer hne
  have hij : i ≠ j := by
    rintro rfl
    rw [hx] at hz
    injection hz with hz
    subst hz
    exact absurd (lt_trans (hall1 e₀ he₀) (hall2 e₀ he₀)) (lt_irrefl _)
  rw [realizerMatrix_eq_one hx hz hij
    (fun e he => lt_trans (hall1 e he) (hall2 e he))]
  exact one_ne_zero

/-- The Boolean test performed by `find_min_realizer` on one candidate
combination: the transitive closures of the intersection matrix and of `h`
agree on the whole `n × n` window (`np.array_equal` in the source). -/
def interPredicate (h : Mat) (items : List α) (combo : List (List α)) : Bool :=
  decide (∀ i (_ : i < items.length), ∀ j (_ : j < items.length),
    transitive_closure items.length (realizerMatrix combo items) i j =
      transitive_closure items.length h i j)

/-- The size loop of `find_min_realizer`: try each candidate size in order,
and within one size return the first combination passing the test. -/
def searchFrom (exts : List (List α)) (p : List (List α) → Bool) :
    List Nat → Option (List (List α) × Nat)
  | [] => none
  | s :: rest =>
    match (List.sublistsLen s exts).find? p with
    | some c => some (c, s)
    | none => searchFrom exts p rest

/-- Embeds `KDimensionUtils.find_min_realizer` (file
`src/utils/k_dimension.py`): enumerate all linear extensions of `h`, then for
each size `1, 2, …, len(all_exts)` scan the combinations of that many
extensions and return the first one whose intersection has the same
transitive closure as `h`, paired with its size.  The Python fallback result
`(None, inf)` is modelled as `none`. -/
def find_min_realizer (h : Mat) (items : List α) : Option (List (List α) × Nat) :=
  let exts := generate_all_linear_extensions h items
  searchFrom exts (interPredicate h items) (List.range' 1 exts.length)

theorem searchFrom_sound {exts : List (List α)} {p : List (List α) → Bool}
    {sizes : List Nat} {c : List (List α)} {s : Nat}
    (h : searchFrom exts p sizes = some (c, s)) :
    s ∈ sizes ∧ c ∈ List.sublistsLen s exts ∧ p c = true := by
  induction sizes with
  | nil => simp [searchFrom] at h
  | cons a rest ih =>
    unfold searchFrom at h
    rcases hf : (List.sublistsLen a exts).find? p with _ | c₀ <;> rw [hf] at h
    · obtain ⟨h1, h2, h3⟩ := ih h
      exact ⟨List.mem_cons_of_mem a h1, h2, h3⟩
    · injection h with h
      injection h with h1 h2
      subst h1; subst h2
      exact ⟨List.mem_cons_self a rest, List.mem_of_find?_eq_some hf,
        List.find?_some hf⟩

theorem searchFrom_none {exts : List (List α)} {p : List (List α) → Bool}
    {sizes : List Nat} (h : searchFrom exts p sizes = none) :
    ∀ s ∈ sizes, ∀ c ∈ List.sublistsLen s exts, p c = false := by
  induction sizes with
  | nil => simp
  | cons a rest ih =>
    unfold searchFrom at h
    rcases hf : (List.sublistsLen a exts).find? p with _ | c₀ <;> rw [hf] at h
    · intro s hs c hc
      rcases List.mem_cons.1 hs with rfl | hs
      · have := List.find?_eq_none.1 hf c hc
        simpa using this
      · exact ih h s hs c hc
    · exact absurd h (by simp)

theorem searchFrom_isSome {exts : List (List α)} {p : List (List α) → Bool}
    {sizes : List Nat} {s : Nat} (hs : s ∈ sizes)
    {c : List (List α)} (hc : c ∈ List.sublistsLen s exts) (hp : p c = true) :
    ∃ r, searchFrom exts p sizes = some r := by
  rcases hr : searchFrom exts p sizes with _ | r
  · have := searchFrom_none hr s hs c hc
    rw [hp] at this
    exact absurd this (by simp)
  · exact ⟨r, rfl⟩

/-- Minimality of the size search: when the size list is strictly sorted, no
combination at a size smaller than the returned one passes the test. -/
theorem searchFrom_minimal {exts : List (List α)} {p : List (List α) → Bool}
    {sizes : List Nat} (hsort : sizes.Pairwise (· < ·))
    {c : List (List α)} {s : Nat} (h : searchFrom exts p sizes = some (c, s)) :
    ∀ s' ∈ sizes, s' < s → ∀ c' ∈ List.sublistsLen s' exts, p c' = false := by
  induction sizes with
  | nil => simp
  | cons a rest ih =>
    unfold searchFrom at h
    rcases hf : (List.sublistsLen a exts).find? p with _ | c₀ <;> rw [hf] at h
    · intro s' hs' hlt c' hc'
      rcases List.mem_cons.1 hs' with rfl | hs'
      · have := List.find?_eq_none.1 hf c' hc'
        simpa using this
      · exact ih (List.Pairwise.of_cons hsort) h s' hs' hlt c' hc'
    · injection h with h
      injection h with h1 h2
      subst h1; subst h2
      intro s' hs' hlt c' hc'
      rcases List.mem_cons.1 hs' with rfl | hs'
      · exact absurd hlt (lt_irrefl _)
      · exact absurd hlt (not_lt.2 (le_of_lt ((List.pairwise_cons.1 hsort).1 s' hs')))

end Extensions

section TopologicalSort

/-- Acyclicity of an embedded `n × n` relation: no point below `n` reaches
itself through the transitive closure. -/
def Acyclic (n : Nat) (M : Mat) : Prop :=
  ∀ i, i < n → transitive_closure n M i i = 0

/-- A finite acyclic relation has a minimal element in every nonempty set of
points below `n`: one that no element of the set points to. -/
theorem exists_minimal {n : Nat} {M : Mat} (hacyc : Acyclic n M) :
    ∀ s : Finset Nat, (∀ x ∈ s, x < n) → s.Nonempty →
      ∃ m ∈ s, ∀ a ∈ s, M a m = 0 := by
  intro s
  induction s using Finset.strongInduction with
  | _ s ih =>
    intro hbound hne
    obtain ⟨x, hx⟩ := hne
    by_cases hmin : ∀ a ∈ s, M a x = 0
    · exact ⟨x, hx, hmin⟩
    · push_neg at hmin
      obtain ⟨y, hy, hyx⟩ := hmin
      set t : Finset Nat := s.filter (fun z => transitive_closure n M z x ≠ 0) with ht
      have hyt : y ∈ t := by
        rw [ht, Finset.mem_filter]
        exact ⟨hy, transitive_closure_of_ne hyx⟩
      have hxt : x ∉ t := by
        rw [ht, Finset.mem_filter]
        rintro ⟨-, hcl⟩
        exact hcl (hacyc x (hbound x hx))
      have hts : t ⊂ s := by
        refine Finset.ssubset_iff_of_subset (Finset.filter_subset _ s) |>.2 ⟨x, hx, hxt⟩
      obtain ⟨m, hmt, hmmin⟩ := ih t hts
        (fun z hz => hbound z (Finset.mem_of_mem_filter z hz))
        ⟨y, hyt⟩
      have hms : m ∈ s := Finset.mem_of_mem_filter m hmt
      refine ⟨m, hms, fun a ha => ?_⟩
      by_contra ham
      have hat : a ∈ t := by
        rw [ht, Finset.mem_filter]
        refine ⟨ha, ?_⟩
        have hmx : transitive_closure n M m x ≠ 0 := (Finset.mem_filter.1 hmt).2
        exact transitive_closure_trans (transitive_closure_of_ne ham)
          (hbound m hms) hmx
      exact absurd (hmmin a hat) ham

/-- Index-level topological sort: an acyclic relation admits a duplicate-free
arrangement of any bounded set of points in which every edge goes forward. -/
theorem exists_topo_list {n : Nat} {M : Mat} (hacyc : Acyclic n M) :
    ∀ s : Finset Nat, (∀ x ∈ s, x < n) →
      ∃ p : List Nat, p.Nodup ∧ (∀ x, x ∈ p ↔ x ∈ s) ∧
        ∀ a ∈ p, ∀ b ∈ p, M a b ≠ 0 → p.indexOf a < p.indexOf b := by
  intro s
  induction s using Finset.strongInduction with
  | _ s ih =>
    intro hbound
    rcases Finset.eq_empty_or_nonempty s with rfl | hne
    · exact ⟨[], List.nodup_nil, by simp, by simp⟩
    · obtain ⟨m, hms, hmmin⟩ := exists_minimal hacyc s hbound hne
      have herase : s.erase m ⊂ s := Finset.erase_ssubset hms
      obtain ⟨p', hnd', hmem', hcons'⟩ := ih (s.erase m) herase
        (fun x hx => hbound x (Finset.mem_of_mem_erase hx))
      have hmp' : m ∉ p' := fun hm => (Finset.not_mem_erase m s) ((hmem' m).1 hm)
      refine ⟨m :: p', List.nodup_cons.2 ⟨hmp', hnd'⟩, ?_, ?_⟩
      · intro x
        rw [List.mem_cons, hmem' x, Finset.mem_erase]
        constructor
        · rintro (rfl | ⟨-, hx⟩)
          · exact hms
          · exact hx
        · intro hx
          by_cases hxm : x = m
          · exact Or.inl hxm
          · exact Or.inr ⟨hxm, hx⟩
      · intro a ha b hb hab
        have hbs : b ∈ s := by
          rcases List.mem_cons.1 hb with rfl | hb'
          · exact hms
          · exact Finset.mem_of_mem_erase ((hmem' b).1 hb')
        have has : a ∈ s := by
          rcases List.mem_cons.1 ha with rfl | ha'
          · exact hms
          · exact Finset.mem_of_mem_erase ((hmem' a).1 ha')
        have hbm : b ≠ m := by
          rintro rfl
          exact absurd (hmmin a has) hab
        have hb' : b ∈ p' := by
          rcases List.mem_cons.1 hb with rfl | hb'
          · exact absurd rfl hbm
          · exact hb'
        rcases List.mem_cons.1 ha with rfl | ha'
        · rw [List.indexOf_cons_self, List.indexOf_cons_ne _ (fun h => hbm h.symm)]
          exact Nat.succ_pos _
        · have ham : a ≠ m := fun h => hmp' (h ▸ ha')
          rw [List.indexOf_cons_ne _ (fun h => ham h.symm),
            List.indexOf_cons_ne _ (fun h => hbm h.symm)]
          exact Nat.succ_lt_succ (hcons' a ha' b hb' hab)

end TopologicalSort

section ExtensionExistence

variable {α : Type} [DecidableEq α]

theorem filterMap_get_range (l : List α) :
    (List.range l.length).filterMap (fun i => l[i]?) = l := by
  induction l with
  | nil => rfl
  | cons x t ih =>
    rw [List.length_cons, List.range_succ_eq_map]
    simp only [List.filterMap_cons, List.getElem?_cons_zero, List.filterMap_map]
    have : ((fun i => (x :: t)[i]?) ∘ Nat.succ) = fun i => t[i]? := by
      funext i
      simp
    rw [this, ih]

theorem indexOf_filterMap_get {items : List α} (hnd : items.Nodup) :
    ∀ (p : List Nat), (∀ x ∈ p, x < items.length) →
      ∀ a (ha : a < items.length), a ∈ p →
        (p.filterMap (fun i => items[i]?)).indexOf (items.get ⟨a, ha⟩) =
          p.indexOf a := by
  intro p
  induction p with
  | nil => simp
  | cons c t ih =>
    intro hb a ha hmem
    have hc : c < items.length := hb c (List.mem_cons_self c t)
    have hstep : (c :: t).filterMap (fun i => items[i]?) =
        items.get ⟨c, hc⟩ :: t.filterMap (fun i => items[i]?) := by
      simp [List.filterMap_cons, List.getElem?_eq_getElem hc]
    rw [hstep]
    by_cases hac : a = c
    · subst hac
      rw [List.indexOf_cons_self, List.indexOf_cons_self]
    · have hne : items.get ⟨c, hc⟩ ≠ items.get ⟨a, ha⟩ := by
        intro he
        exact hac (Fin.val_eq_of_eq ((List.Nodup.get_inj_iff hnd).1 he)).symm
      have hat : a ∈ t := by
        rcases List.mem_cons.1 hmem with rfl | hat
        · exact absurd rfl hac
        · exact hat
      rw [List.indexOf_cons_ne _ hne, List.indexOf_cons_ne _ (fun h => hac h.symm),
        ih (fun x hx => hb x (List.mem_cons_of_mem c hx)) a ha hat]

/-- Any acyclic embedded relation over a duplicate-free item list admits a
consistent arrangement of the items (a linear extension). -/
theorem exists_consistent_ext {items : List α} (hnd : items.Nodup) {M : Mat}
    (hacyc : Acyclic items.length M) :
    ∃ e : List α, e.Perm items ∧ consistentExt M items e := by
  obtain ⟨p, hpnd, hpmem, hpcons⟩ :=
    exists_topo_list hacyc (Finset.range items.length) (by simp)
  have hpb : ∀ x ∈ p, x < items.length := by
    intro x hx
    exact Finset.mem_range.1 ((hpmem x).1 hx)
  refine ⟨p.filterMap (fun i => items[i]?), ?_, ?_⟩
  · have hperm : p.Perm (List.range items.length) := by
      refine (List.perm_ext_iff_of_nodup hpnd (List.nodup_range _)).2 ?_
      intro x
      rw [hpmem x, Finset.mem_range, List.mem_range]
    have := hperm.filterMap (fun i => items[i]?)
    rwa [filterMap_get_range items] at this
  · intro i hi j hj hij
    have hip : i ∈ p := (hpmem i).2 (Finset.mem_range.2 hi)
    have hjp : j ∈ p := (hpmem j).2 (Finset.mem_range.2 hj)
    rw [indexOf_filterMap_get hnd p hpb i hi hip,
      indexOf_filterMap_get hnd p hpb j hj hjp]
    exact hpcons i hip j hjp hij

/-- Adding one directed edge to an embedded relation. -/
def addEdge (M : Mat) (a b : Nat) : Mat := fun i j =>
  if i = a ∧ j = b then 1 else M i j

theorem addEdge_of_ne {M : Mat} {a b i j : Nat} (h : M i j ≠ 0) :
    addEdge M a b i j ≠ 0 := by
  unfold addEdge
  split
  · exact one_ne_zero
  · exact h

theorem addEdge_self (M : Mat) (a b : Nat) : addEdge M a b a b ≠ 0 := by
  unfold addEdge
  rw [if_pos ⟨rfl, rfl⟩]
  exact one_ne_zero

/-- Reachability below `n`: equality or a bounded chain. -/
def reaches (M : Mat) (n : Nat) (a b : Nat) : Prop :=
  a = b ∨ ∃ l, (∀ x ∈ l, x < n) ∧ chainP M a l b

theorem reaches_trans {M : Mat} {n x y z : Nat} (h1 : reaches M n x y)
    (hy : y < n) (h2 : reaches M n y z) : reaches M n x z := by
  rcases h1 with rfl | ⟨l₁, hb₁, hc₁⟩
  · exact h2
  · rcases h2 with rfl | ⟨l₂, hb₂, hc₂⟩
    · exact Or.inr ⟨l₁, hb₁, hc₁⟩
    · refine Or.inr ⟨l₁ ++ y :: l₂, ?_, (chainP_append l₁).2 ⟨hc₁, hc₂⟩⟩
      intro w hw
      rcases List.mem_append.1 hw with hw | hw
      · exact hb₁ w hw
      · rcases List.mem_cons.1 hw with rfl | hw
        · exact hy
        · exact hb₂ w hw

theorem reaches_closure {M : Mat} {n x z : Nat} (hxz : x ≠ z)
    (h : reaches M n x z) : transitive_closure n M x z ≠ 0 := by
  rcases h with rfl | ⟨l, hb, hc⟩
  · exact absurd rfl hxz
  · exact transitive_closure_complete hb hc

/-- A chain in `addEdge M a b` either stays inside `M`, or passes through the
added edge, in which case its source reaches `a` and `b` reaches its sink. -/
theorem chainP_addEdge_decomp {M : Mat} {a b n : Nat} :
    ∀ (l : List Nat) {i j : Nat}, (∀ x ∈ l, x < n) →
      chainP (addEdge M a b) i l j →
      chainP M i l j ∨ (reaches M n i a ∧ reaches M n b j) := by
  intro l
  induction l with
  | nil =>
    intro i j _ hc
    by_cases hab : i = a ∧ j = b
    · exact Or.inr ⟨Or.inl hab.1, Or.inl hab.2.symm⟩
    · left
      rw [chainP_nil]
      have he : addEdge M a b i j = M i j := if_neg hab
      rw [chainP_nil] at hc
      rwa [he] at hc
  | cons k t ih =>
    intro i j hb hc
    obtain ⟨h1, h2⟩ := hc
    have hbt : ∀ x ∈ t, x < n := fun x hx => hb x (List.mem_cons_of_mem k hx)
    rcases ih hbt h2 with hMt | ⟨hka, hbj⟩
    · by_cases hab : i = a ∧ k = b
      · refine Or.inr ⟨Or.inl hab.1, Or.inr ⟨t, hbt, ?_⟩⟩
        rw [hab.2] at hMt
        exact hMt
      · left
        have h1' : M i k ≠ 0 := by
          have he : addEdge M a b i k = M i k := if_neg hab
          rwa [he] at h1
        exact ⟨h1', hMt⟩
    · by_cases hab : i = a ∧ k = b
      · exact Or.inr ⟨Or.inl hab.1, hbj⟩
      · have h1' : M i k ≠ 0 := by
          have he : addEdge M a b i k = M i k := if_neg hab
          rwa [he] at h1
        refine Or.inr ⟨?_, hbj⟩
        have hk : k < n := hb k (List.mem_cons_self k t)
        rcases hka with rfl | ⟨l', hlb, hlc⟩
        · exact Or.inr ⟨[], by simp, h1'⟩
        · refine Or.inr ⟨k :: l', ?_, ⟨h1', hlc⟩⟩
          intro x hx
          rcases List.mem_cons.1 hx with rfl | hx
          · exact hk
          · exact hlb x hx

/-- Adding an edge from `a` to `b` keeps the relation acyclic provided `b`
does not already reach `a`. -/
theorem addEdge_acyclic {n : Nat} {M : Mat} (hacyc : Acyclic n M) {a b : Nat}
    (hab : a ≠ b) (hnr : transitive_closure n M b a = 0) :
    Acyclic n (addEdge M a b) := by
  intro x hx
  by_contra hcl
  obtain ⟨l, hlb, hlc⟩ := transitive_closure_sound hcl
  rcases chainP_addEdge_decomp l hlb hlc with hM | ⟨hxa, hbx⟩
  · exact (transitive_closure_complete hlb hM) (hacyc x hx)
  · have hba : reaches M n b a := reaches_trans hbx hx hxa
    exact (reaches_closure (Ne.symm hab) hba) hnr

/-- For an incomparable pair there is a linear extension placing the second
item before the first.  This is the reversal step of the finite
realizer theorem. -/
theorem exists_reversing_ext {items : List α} (hnd : items.Nodup) {h : Mat}
    (hacyc : Acyclic items.length h) {p q : Nat}
    (hp : p < items.length) (hq : q < items.length) (hpq : p ≠ q)
    (hnpq : transitive_closure items.length h p q = 0) :
    ∃ e, e ∈ generate_all_linear_extensions h items ∧
      e.indexOf (items.get ⟨q, hq⟩) < e.indexOf (items.get ⟨p, hp⟩) := by
  have hacyc' : Acyclic items.length (addEdge h q p) :=
    addEdge_acyclic hacyc (Ne.symm hpq) hnpq
  obtain ⟨e, hperm, hcons'⟩ := exists_consistent_ext hnd hacyc'
  have hcons : consistentExt h items e := by
    intro i hi j hj hij
    exact hcons' i hi j hj (addEdge_of_ne hij)
  refine ⟨e, mem_linear_extensions.2 ⟨hperm, hcons⟩, ?_⟩
  exact hcons' q hq p hp (addEdge_self h q p)

/-- A linear extension respects the whole transitive closure. -/
theorem consistentExt_closure {items e : List α} {h : Mat}
    (hcons : consistentExt h items e) :
    ∀ (l : List Nat) {i j : Nat} (hi : i < items.length) (hj : j < items.length),
      (∀ x ∈ l, x < items.length) → chainP h i l j →
      e.indexOf (items.get ⟨i, hi⟩) < e.indexOf (items.get ⟨j, hj⟩) := by
  intro l
  induction l with
  | nil =>
    intro i j hi hj _ hc
    exact hcons i hi j hj hc
  | cons k t ih =>
    intro i j hi hj hb hc
    obtain ⟨h1, h2⟩ := hc
    have hk : k < items.length := hb k (List.mem_cons_self k t)
    exact lt_trans (hcons i hi k hk h1)
      (ih hk hj (fun x hx => hb x (List.mem_cons_of_mem k hx)) h2)

/-- Finite realizer theorem for this embedding: over a duplicate-free item
list, the intersection of all linear extensions of an acyclic relation is
exactly the transitive closure on the `n × n` window. -/
theorem realizerMatrix_all_exts {items : List α} (hnd : items.Nodup) {h : Mat}
    (hacyc : Acyclic items.length h)
    (hne : generate_all_linear_extensions h items ≠ []) :
    ∀ i, i < items.length → ∀ j, j < items.length →
      realizerMatrix (generate_all_linear_extensions h items) items i j =
        transitive_closure items.length h i j := by
  intro i hi j hj
  by_cases hij : i = j
  · subst hij
    rw [realizerMatrix_diag, hacyc i hi]
  · by_cases hcl : transitive_closure items.length h i j ≠ 0
    · have h1 : realizerMatrix (generate_all_linear_extensions h items) items i j = 1 := by
        refine realizerMatrix_eq_one (List.getElem?_eq_getElem hi)
          (List.getElem?_eq_getElem hj) hij ?_
        intro e he
        obtain ⟨l, hlb, hlc⟩ := transitive_closure_sound hcl
        exact consistentExt_closure (mem_linear_extensions.1 he).2 l hi hj hlb hlc
      rw [h1]
      rcases transitive_closure_val (n := items.length) (by omega) h i j with h0 | h1'
      · exact absurd h0 hcl
      · exact h1'.symm
    · push_neg at hcl
      rw [hcl]
      rcases realizerMatrix_val (generate_all_linear_extensions h items) items i j
        with h0 | h1
      · exact h0
      · exfalso
        have hne' : realizerMatrix (generate_all_linear_extensions h items) items i j ≠ 0 := by
          rw [h1]
          exact one_ne_zero
        obtain ⟨x, y, hx, hy, _, hall⟩ := realizerMatrix_ne_elim hne'
        have hxe : x = items.get ⟨i, hi⟩ := by
          rw [List.getElem?_eq_getElem hi] at hx
          injection hx with hx
          exact hx.symm
        have hye : y = items.get ⟨j, hj⟩ := by
          rw [List.getElem?_eq_getElem hj] at hy
          injection hy with hy
          exact hy.symm
        subst hxe
        subst hye
        by_cases hcl2 : transitive_closure items.length h j i ≠ 0
        · obtain ⟨e₀, he₀⟩ := List.exists_mem_of_ne_nil _ hne
          obtain ⟨l, hlb, hlc⟩ := transitive_closure_sound hcl2
          have hji := consistentExt_closure (mem_linear_extensions.1 he₀).2 l hj hi hlb hlc
          exact absurd (hall e₀ he₀) (not_lt.2 (le_of_lt hji))
        · push_neg at hcl2
          obtain ⟨e, he, hrev⟩ := exists_reversing_ext hnd hacyc hi hj hij hcl
          exact absurd (hall e he) (not_lt.2 (le_of_lt hrev))

/-- The intersection matrix of a nonempty realizer is already transitively
closed. -/
theorem closure_realizerMatrix {realizer : List (List α)} {items : List α}
    (hne : realizer ≠ []) :
    transitive_closure items.length (realizerMatrix realizer items) =
      realizerMatrix realizer items :=
  transitive_closure_fix (realizerMatrix_val _ _)
    (fun _ k _ _ h1 h2 => realizerMatrix_trans hne h1 h2)

end ExtensionExistence

section MinRealizer

variable {α : Type} [DecidableEq α]

instance Acyclic.decidable (n : Nat) (M : Mat) : Decidable (Acyclic n M) := by
  unfold Acyclic
  infer_instance

theorem interPredicate_true_iff {h : Mat} {items : List α} {combo : List (List α)} :
    interPredicate h items combo = true ↔
      ∀ i (_ : i < items.length), ∀ j (_ : j < items.length),
        transitive_closure items.length (realizerMatrix combo items) i j =
          transitive_closure items.length h i j := by
  unfold interPredicate
  exact decide_eq_true_iff

theorem interPredicate_all_exts {items : List α} (hnd : items.Nodup) {h : Mat}
    (hacyc : Acyclic items.length h)
    (hne : generate_all_linear_extensions h items ≠ []) :
    interPredicate h items (generate_all_linear_extensions h items) = true := by
  rw [interPredicate_true_iff]
  intro i hi j hj
  rw [closure_realizerMatrix hne]
  exact realizerMatrix_all_exts hnd hacyc hne i hi j hj

/-- C1.  For every item list without duplicates and every matrix `h` that is
a strict partial order on it (zero diagonal, acyclic) with at least one
linear extension, `find_min_realizer h items` succeeds and returns a pair
`(R, d)` such that: `R` consists of `d` linear extensions of `h`; the
pairwise intersection of the extensions of `R` is exactly
`transitive_closure h` on the `n × n` window; and no nonempty family of
fewer than `d` linear extensions of `h` has that intersection — `d` is the
smallest realizer size found by searching sizes `1, 2, …` in increasing
order. -/
theorem find_min_realizer_correct (h : Mat) (items : List α)
    (hnd : items.Nodup)
    (hdiag : ∀ i, i < items.length → h i i = 0)
    (hacyc : Acyclic items.length h)
    (hex : generate_all_linear_extensions h items ≠ []) :
    ∃ R d, find_min_realizer h items = some (R, d) ∧ R.length = d ∧ 1 ≤ d ∧
      (∀ e ∈ R, e ∈ generate_all_linear_extensions h items) ∧
      (∀ i, i < items.length → ∀ j, j < items.length →
        realizerMatrix R items i j = transitive_closure items.length h i j) ∧
      (∀ S : List (List α), (∀ e ∈ S, e ∈ generate_all_linear_extensions h items) →
        0 < S.length → S.length < d →
        ¬ (∀ i, i < items.length → ∀ j, j < items.length →
            realizerMatrix S items i j = transitive_closure items.length h i j)) := by
  classical
  set exts := generate_all_linear_extensions h items with hexts
  have hL : 1 ≤ exts.length := List.length_pos.2 hex
  have hLmem : exts.length ∈ List.range' 1 exts.length := by
    rw [List.mem_range'_1]
    omega
  have hfull : exts ∈ List.sublistsLen exts.length exts :=
    List.mem_sublistsLen_self (List.Sublist.refl exts)
  obtain ⟨⟨R, d⟩, hsearch⟩ := searchFrom_isSome hLmem hfull
    (interPredicate_all_exts hnd hacyc hex)
  obtain ⟨hdmem, hRmem, hRtrue⟩ := searchFrom_sound hsearch
  obtain ⟨hRsub, hRlen⟩ := List.mem_sublistsLen.1 hRmem
  have hd1 : 1 ≤ d := by
    rw [List.mem_range'_1] at hdmem
    exact hdmem.1
  have hRne : R ≠ [] := by
    intro hnil
    rw [hnil] at hRlen
    simp at hRlen
    omega
  have hRwindow : ∀ i, i < items.length → ∀ j, j < items.length →
      realizerMatrix R items i j = transitive_closure items.length h i j := by
    intro i hi j hj
    have := interPredicate_true_iff.1 hRtrue i hi j hj
    rwa [closure_realizerMatrix hRne] at this
  refine ⟨R, d, ?_, hRlen, hd1, fun e he => hRsub.subset he, hRwindow, ?_⟩
  · unfold find_min_realizer
    exact hsearch
  · intro S hS hpos hlt heq'
    set T := S.dedup with hT
    have hTnd : T.Nodup := List.nodup_dedup S
    have hTsub : T ⊆ exts := fun e he => hS e (List.mem_dedup.1 he)
    obtain ⟨C, hCperm, hCsub⟩ := hTnd.subperm hTsub
    have hCT : C.length = T.length := hCperm.length_eq
    have hTpos : 0 < T.length := by
      obtain ⟨x, hx⟩ := List.exists_mem_of_ne_nil S (List.length_pos.1 hpos)
      have : x ∈ T := List.mem_dedup.2 hx
      exact List.length_pos.2 (List.ne_nil_of_mem this)
    have hTle : T.length ≤ S.length := (List.dedup_sublist S).length_le
    have hCd : C.length < d := by omega
    have hCpos : 0 < C.length := by omega
    have hCmem : C ∈ List.sublistsLen C.length exts :=
      List.mem_sublistsLen.2 ⟨hCsub, rfl⟩
    have hCsize : C.length ∈ List.range' 1 exts.length := by
      rw [List.mem_range'_1]
      have := hCsub.length_le
      omega
    have hCfalse := searchFrom_minimal (List.pairwise_lt_range' 1 exts.length)
      hsearch C.length hCsize hCd C hCmem
    have hCS : realizerMatrix C items = realizerMatrix S items := by
      refine realizerMatrix_congr items ?_
      intro e
      rw [hCperm.mem_iff, List.mem_dedup]
    have hCtrue : interPredicate h items C = true := by
      rw [interPredicate_true_iff]
      intro i hi j hj
      rw [closure_realizerMatrix (List.length_pos.1 hCpos), hCS]
      exact heq' i hi j hj
    rw [hCtrue] at hCfalse
    exact absurd hCfalse (by simp)

/-- Witness for C1 at a concrete two-item order with the single precedence
`0 < 1`. -/
theorem find_min_realizer_correct_witness :
    ∃ R d, find_min_realizer (fun i j => if i = 0 ∧ j = 1 then 1 else 0)
        ([0, 1] : List Nat) = some (R, d) ∧ R.length = d ∧ 1 ≤ d ∧
      (∀ e ∈ R, e ∈ generate_all_linear_extensions
        (fun i j => if i = 0 ∧ j = 1 then 1 else 0) ([0, 1] : List Nat)) ∧
      (∀ i, i < ([0, 1] : List Nat).length → ∀ j, j < ([0, 1] : List Nat).length →
        realizerMatrix R ([0, 1] : List Nat) i j =
          transitive_closure ([0, 1] : List Nat).length
            (fun i j => if i = 0 ∧ j = 1 then 1 else 0) i j) ∧
      (∀ S : List (List Nat), (∀ e ∈ S, e ∈ generate_all_linear_extensions
          (fun i j => if i = 0 ∧ j = 1 then 1 else 0) ([0, 1] : List Nat)) →
        0 < S.length → S.length < d →
        ¬ (∀ i, i < ([0, 1] : List Nat).length → ∀ j, j < ([0, 1] : List Nat).length →
            realizerMatrix S ([0, 1] : List Nat) i j =
              transitive_closure ([0, 1] : List Nat).length
                (fun i j => if i = 0 ∧ j = 1 then 1 else 0) i j)) :=
  find_min_realizer_correct (fun i j => if i = 0 ∧ j = 1 then 1 else 0) [0, 1]
    (by decide) (by decide) (by decide) (by decide)

end MinRealizer

section Crown

/-- The item names `a1, …, ak` followed by `b1, …, bk`, as generated by
`KDimensionUtils.generate_crown_poset`. -/
def crownItems (k : Nat) : List String :=
  ((List.range' 1 k).map fun i => "a" ++ toString i) ++
    ((List.range' 1 k).map fun i => "b" ++ toString i)

/-- The adjacency pairs of the crown: `a_i` points to `b_j` for `i ≠ j`,
mirroring the nested loops building the adjacency dictionary. -/
def crownAdj (k : Nat) : List (String × String) :=
  (List.range' 1 k).flatMap fun i =>
    ((List.range' 1 k).filter (· != i)).map fun j =>
      ("a" ++ toString i, "b" ++ toString j)

/-- The adjacency matrix assembled from the item positions of the adjacency
pairs (`item_to_index` in the source). -/
def crownMatrix (k : Nat) : Mat := fun p q =>
  if ∃ e, e ∈ crownAdj k ∧ (crownItems k).indexOf e.1 = p ∧
      (crownItems k).indexOf e.2 = q then 1 else 0

/-- Embeds `KDimensionUtils.generate_crown_poset` (file
`src/utils/k_dimension.py`): items in the order `[a1.. ak, b1..bk]`, the
adjacency pairs, and the adjacency matrix. -/
def generate_crown_poset (k : Nat) :
    List String × List (String × String) × Mat :=
  (crownItems k, crownAdj k, crownMatrix k)

theorem crownMatrix_val (k : Nat) (p q : Nat) :
    crownMatrix k p q = 0 ∨ crownMatrix k p q = 1 := by
  unfold crownMatrix
  split
  · exact Or.inr rfl
  · exact Or.inl rfl

theorem crownItems_length (k : Nat) : (crownItems k).length = 2 * k := by
  unfold crownItems
  simp [List.length_append]
  omega

theorem crownAdj_mem (k : Nat) (x y : String) :
    (x, y) ∈ crownAdj k ↔ ∃ i j, 1 ≤ i ∧ i ≤ k ∧ 1 ≤ j ∧ j ≤ k ∧ j ≠ i ∧
      x = "a" ++ toString i ∧ y = "b" ++ toString j := by
  unfold crownAdj
  simp only [List.mem_flatMap, List.mem_map, List.mem_filter, List.mem_range'_1,
    bne_iff_ne, ne_eq, Prod.mk.injEq]
  constructor
  · rintro ⟨i, ⟨hi1, hi2⟩, j, ⟨⟨hj1, hj2⟩, hji⟩, hx, hy⟩
    exact ⟨i, j, hi1, by omega, hj1, by omega, hji, hx.symm, hy.symm⟩
  · rintro ⟨i, j, hi1, hi2, hj1, hj2, hji, hx, hy⟩
    exact ⟨i, ⟨hi1, by omega⟩, j, ⟨⟨hj1, by omega⟩, hji⟩, hx.symm, hy.symm⟩

theorem crownAdj_length (k : Nat) : (crownAdj k).length = k * (k - 1) := by
  unfold crownAdj
  rw [List.length_flatMap]
  have hinner : ∀ i ∈ List.range' 1 k,
      ((((List.range' 1 k).filter (· != i)).map fun j =>
        (("a" ++ toString i, "b" ++ toString j) : String × String)).length) = k - 1 := by
    intro i hi
    rw [List.length_map, ← List.Nodup.erase_eq_filter (List.nodup_range' 1 k) i,
      List.length_erase_of_mem hi, List.length_range']
  simp only [Function.comp_def]
  rw [List.map_congr_left hinner, List.map_const', List.sum_replicate, List.length_range',
    smul_eq_mul]

theorem crown3_adj : crownAdj 3 =
    [("a1", "b2"), ("a1", "b3"), ("a2", "b1"), ("a2", "b3"), ("a3", "b1"), ("a3", "b2")] := by
  decide

theorem crown3_entry_cases {p q : Nat} (h : crownMatrix 3 p q ≠ 0) :
    p < 3 ∧ 3 ≤ q ∧ q < 6 ∧ q ≠ p + 3 := by
  unfold crownMatrix at h
  by_cases hc : ∃ e, e ∈ crownAdj 3 ∧ (crownItems 3).indexOf e.1 = p ∧
      (crownItems 3).indexOf e.2 = q
  · obtain ⟨e, he, h1, h2⟩ := hc
    subst h1
    subst h2
    rw [crown3_adj] at he
    fin_cases he <;> decide
  · rw [if_neg hc] at h
    exact absurd rfl h

theorem crown3_closure :
    transitive_closure (crownItems 3).length (crownMatrix 3) = crownMatrix 3 := by
  refine transitive_closure_fix (crownMatrix_val 3) ?_
  intro i k j _ h1 h2
  exfalso
  have c1 := crown3_entry_cases h1
  have c2 := crown3_entry_cases h2
  omega

theorem crown3_acyclic : Acyclic (crownItems 3).length (crownMatrix 3) := by
  intro x _
  rw [crown3_closure]
  by_contra h
  have := crown3_entry_cases h
  omega

theorem crown3_diag : ∀ i, crownMatrix 3 i i = 0 := by
  intro i
  by_contra h
  have := crown3_entry_cases h
  omega

theorem crown3_hex :
    generate_all_linear_extensions (crownMatrix 3) (crownItems 3) ≠ [] :=
  List.ne_nil_of_mem (mem_linear_extensions.2 ⟨List.Perm.refl _, by decide⟩)

/-- Three explicit linear extensions of the three-crown, each reversing one
critical pair `(a_i, b_i)`. -/
def crownL1 : List String := ["a2", "a3", "b1", "a1", "b2", "b3"]

def crownL2 : List String := ["a1", "a3", "b2", "a2", "b1", "b3"]

def crownL3 : List String := ["a1", "a2", "b3", "a3", "b1", "b2"]

/-- The `i`-th lower item of the crown in zero-based position counting. -/
def aItem (i : Nat) : String := "a" ++ toString (i + 1)

/-- The `i`-th upper item of the crown in zero-based position counting. -/
def bItem (i : Nat) : String := "b" ++ toString (i + 1)

theorem crown3_get_a : ∀ i, i < 3 → (crownItems 3)[i]? = some (aItem i) := by decide

theorem crown3_get_b : ∀ i, i < 3 → (crownItems 3)[i + 3]? = some (bItem i) := by decide

theorem crown3_a_mem : ∀ i, i < 3 → aItem i ∈ crownItems 3 := by decide

theorem crown3_b_mem : ∀ i, i < 3 → bItem i ∈ crownItems 3 := by decide

theorem crown3_ab_ne : ∀ i, i < 3 → aItem i ≠ bItem i := by decide

theorem crown3_edge : ∀ i, i < 3 → ∀ j, j < 3 → i ≠ j →
    crownMatrix 3 i (j + 3) ≠ 0 := by decide

theorem crown3_get_a' (i : Nat) (hi : i < 3) (hi' : i < (crownItems 3).length) :
    (crownItems 3).get ⟨i, hi'⟩ = aItem i := by
  have h1 := crown3_get_a i hi
  rw [List.getElem?_eq_getElem hi'] at h1
  injection h1 with h1

theorem crown3_get_b' (i : Nat) (hi : i < 3) (hi' : i + 3 < (crownItems 3).length) :
    (crownItems 3).get ⟨i + 3, hi'⟩ = bItem i := by
  have h1 := crown3_get_b i hi
  rw [List.getElem?_eq_getElem hi'] at h1
  injection h1 with h1

/-- A single linear extension of the three-crown cannot reverse two distinct
critical pairs. -/
theorem crown_rev_unique {e : List String}
    (hcons : consistentExt (crownMatrix 3) (crownItems 3) e)
    {i j : Nat} (hi : i < 3) (hj : j < 3) (hij : i ≠ j)
    (ri : e.indexOf (bItem i) < e.indexOf (aItem i))
    (rj : e.indexOf (bItem j) < e.indexOf (aItem j)) : False := by
  have hlen : (crownItems 3).length = 6 := by decide
  have hi' : i < (crownItems 3).length := by omega
  have hj' : j < (crownItems 3).length := by omega
  have hi3' : i + 3 < (crownItems 3).length := by omega
  have hj3' : j + 3 < (crownItems 3).length := by omega
  have h1 := hcons i hi' (j + 3) hj3' (crown3_edge i hi j hj hij)
  have h2 := hcons j hj' (i + 3) hi3' (crown3_edge j hj i hi (Ne.symm hij))
  rw [crown3_get_a' i hi, crown3_get_b' j hj] at h1
  rw [crown3_get_a' j hj, crown3_get_b' i hi] at h2
  omega

theorem crown_unreversed_entry {R : List (List String)}
    (hmem : ∀ e ∈ R, e.Perm (crownItems 3)) {i : Nat} (hi : i < 3)
    (hunrev : ∀ e ∈ R, ¬ e.indexOf (bItem i) < e.indexOf (aItem i)) :
    realizerMatrix R (crownItems 3) i (i + 3) = 1 := by
  refine realizerMatrix_eq_one (crown3_get_a i hi) (crown3_get_b i hi) (by omega) ?_
  intro e he
  have hperm := hmem e he
  have hamem : aItem i ∈ e := hperm.mem_iff.2 (crown3_a_mem i hi)
  have hbmem : bItem i ∈ e := hperm.mem_iff.2 (crown3_b_mem i hi)
  have hne : e.indexOf (aItem i) ≠ e.indexOf (bItem i) := by
    intro heq
    exact (crown3_ab_ne i hi) ((List.indexOf_inj hamem hbmem).1 heq)
  have := hunrev e he
  omega

/-- Pigeonhole step: at most two extensions can only reverse at most two of
the three critical pairs of the crown. -/
theorem crown_exists_unreversed {R : List (List String)}
    (hmem : ∀ e ∈ R, e ∈ generate_all_linear_extensions (crownMatrix 3) (crownItems 3))
    (hlen : R.length ≤ 2) :
    ∃ i, i < 3 ∧ ∀ e ∈ R, ¬ e.indexOf (bItem i) < e.indexOf (aItem i) := by
  classical
  set S : Finset Nat := (Finset.range 3).filter
    (fun i => ∃ e ∈ R, e.indexOf (bItem i) < e.indexOf (aItem i)) with hS
  by_cases hfull : ∀ i ∈ Finset.range 3, i ∈ S
  · exfalso
    have hcard : (Finset.range 3).card ≤ S.card :=
      Finset.card_le_card (fun i hi => hfull i hi)
    set f : Nat → List String := fun i =>
      (R.find? (fun e => decide (e.indexOf (bItem i) < e.indexOf (aItem i)))).getD []
      with hf
    have hfprop : ∀ i ∈ S, f i ∈ R ∧ (f i).indexOf (bItem i) < (f i).indexOf (aItem i) := by
      intro i hiS
      obtain ⟨e, he, hrev⟩ := (Finset.mem_filter.1 hiS).2
      have hsome : (R.find? (fun e => decide (e.indexOf (bItem i) < e.indexOf (aItem i)))).isSome := by
        rw [List.find?_isSome]
        exact ⟨e, he, by simpa using hrev⟩
      rcases hfind : R.find? (fun e => decide (e.indexOf (bItem i) < e.indexOf (aItem i)))
        with _ | e₀
      · rw [hfind] at hsome
        simp at hsome
      · have hmem₀ := List.mem_of_find?_eq_some hfind
        have hp₀ := List.find?_some hfind
        simp only [decide_eq_true_eq] at hp₀
        rw [hf]
        simp only [hfind, Option.getD_some]
        exact ⟨hmem₀, hp₀⟩
    have hcard2 : S.card ≤ R.toFinset.card := by
      refine Finset.card_le_card_of_injOn f ?_ ?_
      · intro i hiS
        exact List.mem_toFinset.2 (hfprop i hiS).1
      · intro i hiS j hjS hfij
        by_contra hij
        have hpi := hfprop i hiS
        have hpj := hfprop j hjS
        have hconsi : consistentExt (crownMatrix 3) (crownItems 3) (f i) :=
          (mem_linear_extensions.1 (hmem (f i) hpi.1)).2
        have hi3 : i < 3 := Finset.mem_range.1 (Finset.mem_filter.1 hiS).1
        have hj3 : j < 3 := Finset.mem_range.1 (Finset.mem_filter.1 hjS).1
        refine crown_rev_unique hconsi hi3 hj3 hij hpi.2 ?_
        rw [hfij]
        exact hpj.2
    have hcard3 : R.toFinset.card ≤ R.length := R.toFinset_card_le
    rw [Finset.card_range] at hcard
    omega
  · push_neg at hfull
    obtain ⟨i, hi, hiS⟩ := hfull
    refine ⟨i, Finset.mem_range.1 hi, ?_⟩
    intro e he hrev
    exact hiS (Finset.mem_filter.2 ⟨hi, ⟨e, he, hrev⟩⟩)

/-- No family of at most two linear extensions realizes the three-crown. -/
theorem crown_le2_fails {R : List (List String)}
    (hmem : ∀ e ∈ R, e ∈ generate_all_linear_extensions (crownMatrix 3) (crownItems 3))
    (hlen : R.length ≤ 2) :
    interPredicate (crownMatrix 3) (crownItems 3) R = false := by
  by_contra hP
  have hP' : interPredicate (crownMatrix 3) (crownItems 3) R = true := by
    cases h : interPredicate (crownMatrix 3) (crownItems 3) R
    · exact absurd h hP
    · rfl
  rw [interPredicate_true_iff] at hP'
  obtain ⟨i, hi3, hunrev⟩ := crown_exists_unreversed hmem hlen
  have hlen6 : (crownItems 3).length = 6 := by decide
  have hi' : i < (crownItems 3).length := by omega
  have hi3' : i + 3 < (crownItems 3).length := by omega
  have hperm : ∀ e ∈ R, e.Perm (crownItems 3) := fun e he =>
    (mem_linear_extensions.1 (hmem e he)).1
  have hone := crown_unreversed_entry hperm hi3 hunrev
  have hL : transitive_closure (crownItems 3).length
      (realizerMatrix R (crownItems 3)) i (i + 3) ≠ 0 :=
    transitive_closure_of_ne (by rw [hone]; exact one_ne_zero)
  have hR : transitive_closure (crownItems 3).length (crownMatrix 3) i (i + 3) = 0 := by
    rw [crown3_closure]
    by_contra h
    exact (crown3_entry_cases h).2.2.2 rfl
  rw [hP' i hi' (i + 3) hi3'] at hL
  exact hL hR

theorem crown3_inter_window : ∀ p, p < 6 → ∀ q, q < 6 →
    realizerMatrix [crownL1, crownL2, crownL3] (crownItems 3) p q = crownMatrix 3 p q := by
  decide

/-- Some combination of three linear extensions realizes the three-crown. -/
theorem crown_hit3 : ∃ C ∈ List.sublistsLen 3
      (generate_all_linear_extensions (crownMatrix 3) (crownItems 3)),
    interPredicate (crownMatrix 3) (crownItems 3) C = true := by
  classical
  have h1 : crownL1 ∈ generate_all_linear_extensions (crownMatrix 3) (crownItems 3) :=
    mem_linear_extensions.2 ⟨by decide, by decide⟩
  have h2 : crownL2 ∈ generate_all_linear_extensions (crownMatrix 3) (crownItems 3) :=
    mem_linear_extensions.2 ⟨by decide, by decide⟩
  have h3 : crownL3 ∈ generate_all_linear_extensions (crownMatrix 3) (crownItems 3) :=
    mem_linear_extensions.2 ⟨by decide, by decide⟩
  have hTnd : ([crownL1, crownL2, crownL3] : List (List String)).Nodup := by decide
  have hTsub : ([crownL1, crownL2, crownL3] : List (List String)) ⊆
      generate_all_linear_extensions (crownMatrix 3) (crownItems 3) := by
    intro e he
    rcases List.mem_cons.1 he with rfl | he
    · exact h1
    rcases List.mem_cons.1 he with rfl | he
    · exact h2
    rcases List.mem_cons.1 he with rfl | he
    · exact h3
    · simp at he
  obtain ⟨C, hCperm, hCsub⟩ := hTnd.subperm hTsub
  have hClen : C.length = 3 := by
    rw [hCperm.length_eq]
    rfl
  refine ⟨C, List.mem_sublistsLen.2 ⟨hCsub, hClen⟩, ?_⟩
  rw [interPredicate_true_iff]
  intro p hp q hq
  have hCne : C ≠ [] := by
    intro h
    rw [h] at hClen
    simp at hClen
  rw [closure_realizerMatrix hCne, crown3_closure,
    realizerMatrix_congr (crownItems 3) (fun e => hCperm.mem_iff)]
  have hlen6 : (crownItems 3).length = 6 := by decide
  exact crown3_inter_window p (by omega) q (by omega)

/-- The realizer search applied to the three-crown returns size `3`, and the
returned family intersects to exactly the crown relation. -/
theorem crown_find_min :
    ∃ R, find_min_realizer (crownMatrix 3) (crownItems 3) = some (R, 3) ∧
      ∀ p, p < 6 → ∀ q, q < 6 →
        realizerMatrix R (crownItems 3) p q = crownMatrix 3 p q := by
  obtain ⟨C3, hC3mem, hC3true⟩ := crown_hit3
  obtain ⟨hC3sub, hC3len⟩ := List.mem_sublistsLen.1 hC3mem
  have h3L : 3 ≤ (generate_all_linear_extensions (crownMatrix 3) (crownItems 3)).length := by
    have := hC3sub.length_le
    omega
  have h3mem : 3 ∈ List.range' 1
      (generate_all_linear_extensions (crownMatrix 3) (crownItems 3)).length := by
    rw [List.mem_range'_1]
    omega
  obtain ⟨⟨R, d⟩, hsearch⟩ := searchFrom_isSome h3mem hC3mem hC3true
  obtain ⟨hdmem, hRmem, hRtrue⟩ := searchFrom_sound hsearch
  obtain ⟨hRsub, hRlen⟩ := List.mem_sublistsLen.1 hRmem
  have hd1 : 1 ≤ d := by
    rw [List.mem_range'_1] at hdmem
    exact hdmem.1
  have hdle : d ≤ 3 := by
    by_contra hgt
    push_neg at hgt
    have := searchFrom_minimal (List.pairwise_lt_range' 1 _) hsearch 3 h3mem hgt C3 hC3mem
    rw [hC3true] at this
    exact absurd this (by simp)
  have hdge : 3 ≤ d := by
    by_contra hlt
    push_neg at hlt
    have hfail := crown_le2_fails (fun e he => hRsub.subset he) (by omega)
    rw [hRtrue] at hfail
    exact absurd hfail (by simp)
  have hd3 : d = 3 := by omega
  subst hd3
  have hRne : R ≠ [] := by
    intro h
    rw [h] at hRlen
    simp at hRlen
  refine ⟨R, by unfold find_min_realizer; exact hsearch, ?_⟩
  intro p hp q hq
  have hlen6 : (crownItems 3).length = 6 := by decide
  have := interPredicate_true_iff.1 hRtrue p (by omega) q (by omega)
  rw [closure_realizerMatrix hRne, crown3_closure] at this
  exact this

/-- C4.  `generate_crown_poset 3` returns exactly the six items
`[a1, a2, a3, b1, b2, b3]` and an adjacency matrix holding precisely the six
edges `a_i < b_j` for `i ≠ j` (zero diagonal, no other entry); for general
`k` it returns `2k` items and the adjacency pair set `{(a_i, b_j) : i ≠ j}`
of size `k·(k-1)`; and `find_min_realizer` on the three-crown returns a
realizer of minimal size `3`. -/
theorem crown_poset_spec :
    (generate_crown_poset 3).1 = ["a1", "a2", "a3", "b1", "b2", "b3"] ∧
    (∀ p, p < 6 → ∀ q, q < 6 → ((generate_crown_poset 3).2.2 p q = 1 ↔
      p < 3 ∧ 3 ≤ q ∧ q ≠ p + 3)) ∧
    (∀ p, (generate_crown_poset 3).2.2 p p = 0) ∧
    (((List.range 6).flatMap fun p => (List.range 6).filter fun q =>
      (generate_crown_poset 3).2.2 p q != 0).length = 6) ∧
    (∀ k, (generate_crown_poset k).1.length = 2 * k) ∧
    (∀ k x y, (x, y) ∈ (generate_crown_poset k).2.1 ↔
      ∃ i j, 1 ≤ i ∧ i ≤ k ∧ 1 ≤ j ∧ j ≤ k ∧ j ≠ i ∧
        x = "a" ++ toString i ∧ y = "b" ++ toString j) ∧
    (∀ k, (generate_crown_poset k).2.1.length = k * (k - 1)) ∧
    (∃ R, find_min_realizer (generate_crown_poset 3).2.2 (generate_crown_poset 3).1 =
        some (R, 3) ∧
      ∀ p, p < 6 → ∀ q, q < 6 →
        realizerMatrix R (generate_crown_poset 3).1 p q =
          (generate_crown_poset 3).2.2 p q) := by
  refine ⟨by decide, by decide, crown3_diag, by decide, crownItems_length,
    fun k x y => crownAdj_mem k x y, crownAdj_length, ?_⟩
  exact crown_find_min

end Crown

section Summarization

/-- A traced partial-order sample: a matrix of rational entries where `none`
stands for a missing value (`NaN` in the float arrays of the source). -/
abbrev HSample : Type := List (List (Option ℚ))

/-- A rational matrix (used for the latent-position samples). -/
abbrev QMat : Type := List (List ℚ)

/-- The record produced by the MCMC simulation, as consumed by
`run_inference`.  A `none` field models an absent dictionary key. -/
structure MCMCResult where
  h_trace : Option (List HSample)
  Z_trace : Option (List QMat)
  rho_trace : Option (List ℚ)
  prob_noise_trace : Option (List ℚ)
  mallow_theta_trace : Option (List ℚ)
  deriving DecidableEq

/-- The input dataset record of `run_inference`; `none` fields model absent
keys (`data.get(...)` / `parameters.get(...)` in the source). -/
structure Dataset where
  total_orders : Option (List (List Nat))
  subsets : Option (List (List (List Nat)))
  beta_true : Option (List ℚ)
  X : Option QMat
  deriving DecidableEq

/-- The configuration values read by `run_inference` that affect the
summarization path: the covariate dimension and the burn-in. -/
structure Config where
  p : Nat
  burn_in : Nat
  deriving DecidableEq

/-- The summarized record returned by `run_inference`; the printed warnings
of the source are modelled as Boolean flags. -/
structure SummaryOut where
  h : List (List Nat)
  warnedBurnIn : Bool
  warnedNaN : Bool
  warnedNoHTrace : Bool
  Z : QMat
  rho : ℚ
  prob_noise : ℚ
  beta : List ℚ
  deriving DecidableEq

/-- Elementwise mean of the trace samples ignoring missing values
(`np.nanmean(post_burn_in_trace, axis=0)`): an entry is missing exactly when
it is missing in every sample. -/
def nanmeanMat (ts : List HSample) : HSample :=
  (List.range (ts.headD []).length).map fun i =>
    (List.range ((ts.headD []).getD i []).length).map fun j =>
      let vals := ts.filterMap fun m => (m.getD i []).getD j none
      if vals.length = 0 then none else some (vals.sum / (vals.length : ℚ))

/-- Whether a sample matrix contains a missing entry
(`np.any(np.isnan(h_final))`). -/
def hasNaN (m : HSample) : Bool :=
  m.any fun row => row.any fun e => e.isNone

/-- Thresholding at `0.5` (`h_final >= threshold`); a missing entry compares
as false, as NaN does in NumPy. -/
def threshMat (m : HSample) : List (List Nat) :=
  m.map fun row => row.map fun e =>
    match e with
    | some v => if (1 : ℚ) / 2 ≤ v then 1 else 0
    | none => 0

/-- Reading a list-of-lists matrix as a total function (entries outside the
stored window are `0`). -/
def matOfList (M : List (List Nat)) : Mat := fun i j => (M.getD i []).getD j 0

/-- Modelled from the spec: `BasicUtils.transitive_reduction` (the file
`src/utils/basic_utils.py` is absent from the sources) returns the minimal
relation with the same transitive closure, i.e. it keeps an edge of the
closure exactly when no intermediate point below `n` joins its endpoints. -/
def transitive_reduction (n : Nat) (M : Mat) : Mat := fun i j =>
  if transitive_closure n M i j ≠ 0 ∧
      ¬ ∃ k, k ∈ List.range n ∧ transitive_closure n M i k ≠ 0 ∧
        transitive_closure n M k j ≠ 0 then 1 else 0

/-- The transitive reduction of a square list matrix, materialized on its
`n × n` window. -/
def transitive_reduction_list (M : List (List Nat)) : List (List Nat) :=
  (List.range M.length).map fun i =>
    (List.range M.length).map fun j =>
      transitive_reduction M.length (matOfList M) i j

/-- The burn-in adjustment of the source: a burn-in at least the trace
length is replaced by `max(0, len - 1000)` (with a warning). -/
def adjustedBurnIn (b len : Nat) : Nat := if len ≤ b then len - 1000 else b

/-- Embeds the summarization section of `run_inference`
(`src/inference/po_inference.py`, after the MCMC call): compute the final
partial order from `h_trace` (burn-in adjustment, nanmean, missing-value
fallback to the last sample, threshold at `0.5`, transitive reduction), and
expose the final samples of the other traces as point estimates.  Raising
`ValueError` is modelled as `Except.error`; printed warnings are returned as
flags. -/
def summarize (r : MCMCResult) (burn_in : Nat) (beta_true : List ℚ) :
    Except String SummaryOut :=
  match r.h_trace with
  | some tr =>
    if (tr.drop (adjustedBurnIn burn_in tr.length)).length = 0 then
      Except.error "No valid data after burn-in period"
    else
      Except.ok
        { h := transitive_reduction_list (threshMat
            (if hasNaN (nanmeanMat (tr.drop (adjustedBurnIn burn_in tr.length)))
             then tr.getLastD []
             else nanmeanMat (tr.drop (adjustedBurnIn burn_in tr.length))))
          warnedBurnIn := decide (tr.length ≤ burn_in)
          warnedNaN := hasNaN (nanmeanMat (tr.drop (adjustedBurnIn burn_in tr.length)))
          warnedNoHTrace := false
          Z := (r.Z_trace.getD []).getLastD []
          rho := (r.rho_trace.getD []).getLastD 0
          prob_noise := (r.prob_noise_trace.getD []).getLastD 0
          beta := beta_true }
  | none =>
    Except.ok
      { h := []
        warnedBurnIn := false
        warnedNaN := false
        warnedNoHTrace := true
        Z := (r.Z_trace.getD []).getLastD []
        rho := (r.rho_trace.getD []).getLastD 0
        prob_noise := (r.prob_noise_trace.getD []).getLastD 0
        beta := beta_true }

/-- Embeds `run_inference` (`src/inference/po_inference.py`): default the
possibly missing dataset keys, build `alpha = X @ beta_true`, call the MCMC
simulation — absent from the sources and therefore passed as an abstract
function of the data-dependent arguments — and summarize its result. -/
def run_inference
    (mcmc : List (List Nat) → List (List (List Nat)) → List ℚ → MCMCResult)
    (data : Dataset) (cfg : Config) : Except String SummaryOut :=
  let total_orders := data.total_orders.getD []
  let subsets := data.subsets.getD []
  let beta_true := data.beta_true.getD (List.replicate cfg.p 0)
  let X := data.X.getD (List.replicate total_orders.length (List.replicate cfg.p 0))
  let alpha := X.map fun row => (List.zipWith (fun a b => a * b) row beta_true).sum
  summarize (mcmc total_orders subsets alpha) cfg.burn_in beta_true

theorem getD_map_range {β : Type} (n i : Nat) (f : Nat → β) (d : β) :
    ((List.range n).map f).getD i d = if i < n then f i else d := by
  rcases Nat.lt_or_ge i n with h | h
  · rw [List.getD_eq_getElem?_getD, List.getElem?_map, List.getElem?_range h,
      if_pos h]
    rfl
  · rw [List.getD_eq_getElem?_getD, List.getElem?_eq_none (by simpa using h),
      if_neg (Nat.not_lt.2 h)]
    rfl

theorem matOfList_reduction_list (M : List (List Nat)) (i j : Nat) :
    matOfList (transitive_reduction_list M) i j =
      if i < M.length ∧ j < M.length
      then transitive_reduction M.length (matOfList M) i j else 0 := by
  unfold matOfList transitive_reduction_list
  rcases Nat.lt_or_ge i M.length with hi | hi
  · rw [getD_map_range, if_pos hi, getD_map_range]
    rcases Nat.lt_or_ge j M.length with hj | hj
    · rw [if_pos hj, if_pos ⟨hi, hj⟩]
      rfl
    · rw [if_neg (Nat.not_lt.2 hj), if_neg (fun hc => absurd hc.2 (Nat.not_lt.2 hj))]
  · rw [getD_map_range, if_neg (Nat.not_lt.2 hi),
      if_neg (fun hc => absurd hc.1 (Nat.not_lt.2 hi))]
    simp

theorem transitive_reduction_ne_elim {n : Nat} {M : Mat} {i j : Nat}
    (h : transitive_reduction n M i j ≠ 0) :
    transitive_closure n M i j ≠ 0 ∧
      ¬ ∃ k, k ∈ List.range n ∧ transitive_closure n M i k ≠ 0 ∧
        transitive_closure n M k j ≠ 0 := by
  unfold transitive_reduction at h
  by_cases hc : transitive_closure n M i j ≠ 0 ∧
      ¬ ∃ k, k ∈ List.range n ∧ transitive_closure n M i k ≠ 0 ∧
        transitive_closure n M k j ≠ 0
  · exact hc
  · rw [if_neg hc] at h
    exact absurd rfl h

/-- The output of the list-level transitive reduction never contains a
two-step edge together with its shortcut. -/
theorem transitive_reduction_list_reduced (M : List (List Nat)) :
    ∀ i j k, matOfList (transitive_reduction_list M) i j ≠ 0 →
      matOfList (transitive_reduction_list M) j k ≠ 0 →
      matOfList (transitive_reduction_list M) i k = 0 := by
  intro i j k hij hjk
  rw [matOfList_reduction_list] at hij hjk ⊢
  by_cases hik : i < M.length ∧ k < M.length
  · rw [if_pos hik]
    have hij' : i < M.length ∧ j < M.length := by
      by_contra hc
      rw [if_neg hc] at hij
      exact hij rfl
    have hjk' : j < M.length ∧ k < M.length := by
      by_contra hc
      rw [if_neg hc] at hjk
      exact hjk rfl
    rw [if_pos hij'] at hij
    rw [if_pos hjk'] at hjk
    have e1 := transitive_reduction_ne_elim hij
    have e2 := transitive_reduction_ne_elim hjk
    unfold transitive_reduction
    rw [if_neg]
    rintro ⟨-, hno⟩
    exact hno ⟨j, List.mem_range.2 hij'.2, e1.1, e2.1⟩
  · rw [if_neg hik]

/-- Entries of the list-level transitive reduction are `0` or `1`. -/
theorem transitive_reduction_list_val (M : List (List Nat)) :
    ∀ row ∈ transitive_reduction_list M, ∀ v ∈ row, v = 0 ∨ v = 1 := by
  intro row hrow v hv
  unfold transitive_reduction_list at hrow
  obtain ⟨i, -, rfl⟩ := List.mem_map.1 hrow
  obtain ⟨j, -, rfl⟩ := List.mem_map.1 hv
  unfold transitive_reduction
  split
  · exact Or.inr rfl
  · exact Or.inl rfl

theorem summarize_ok {r : MCMCResult} {tr : List HSample} (htr : r.h_trace = some tr)
    {burn_in : Nat}
    (hpost : (tr.drop (adjustedBurnIn burn_in tr.length)).length ≠ 0)
    (bt : List ℚ) :
    summarize r burn_in bt = Except.ok
      { h := transitive_reduction_list (threshMat
          (if hasNaN (nanmeanMat (tr.drop (adjustedBurnIn burn_in tr.length)))
           then tr.getLastD []
           else nanmeanMat (tr.drop (adjustedBurnIn burn_in tr.length))))
        warnedBurnIn := decide (tr.length ≤ burn_in)
        warnedNaN := hasNaN (nanmeanMat (tr.drop (adjustedBurnIn burn_in tr.length)))
        warnedNoHTrace := false
        Z := (r.Z_trace.getD []).getLastD []
        rho := (r.rho_trace.getD []).getLastD 0
        prob_noise := (r.prob_noise_trace.getD []).getLastD 0
        beta := bt } := by
  obtain ⟨ht, Zt, rt, pt, mt⟩ := r
  simp only at htr
  subst htr
  unfold summarize
  simp only [if_neg hpost]

/-- A nonempty trace always survives the burn-in adjustment. -/
theorem adjusted_post_ne {tr : List HSample} (hne : tr ≠ []) (burn_in : Nat) :
    (tr.drop (adjustedBurnIn burn_in tr.length)).length ≠ 0 := by
  have hlen : 0 < tr.length := List.length_pos.2 hne
  unfold adjustedBurnIn
  rw [List.length_drop]
  split <;> omega

theorem getLastD_eq_getLast {β : Type} {l : List β} (h : l ≠ []) (d : β) :
    l.getLastD d = l.getLast h := by
  rw [List.getLastD_eq_getLast?, List.getLast?_eq_getLast l h]
  rfl

theorem getLastD_drop {β : Type} {l : List β} {k : Nat} (hk : k < l.length) (d : β) :
    (l.drop k).getLastD d = l.getLastD d := by
  rw [List.getLastD_eq_getLast?, List.getLastD_eq_getLast?,
    List.getLast?_eq_getElem?, List.getLast?_eq_getElem?, List.getElem?_drop,
    List.length_drop]
  have hidx : k + (l.length - k - 1) = l.length - 1 := by omega
  rw [hidx]

/-- C2 (amended).  For every MCMC result with a nonempty `h_trace`, whenever
the configured burn-in is strictly below the trace length and the
elementwise nanmean of the post-burn-in samples contains no missing value,
the final `h` returned by `run_inference` equals the transitive reduction of
the matrix obtained by thresholding that mean at `0.5`; in particular the
reported `h` is transitively reduced. -/
theorem summary_mean_claim_amended (r : MCMCResult) (data : Dataset) (cfg : Config)
    (tr : List HSample) (htr : r.h_trace = some tr)
    (hb : cfg.burn_in < tr.length)
    (hnn : hasNaN (nanmeanMat (tr.drop cfg.burn_in)) = false) :
    ∃ out, run_inference (fun _ _ _ => r) data cfg = Except.ok out ∧
      out.h = transitive_reduction_list (threshMat (nanmeanMat (tr.drop cfg.burn_in))) ∧
      (∀ i j k, matOfList out.h i j ≠ 0 → matOfList out.h j k ≠ 0 →
        matOfList out.h i k = 0) := by
  have hadj : adjustedBurnIn cfg.burn_in tr.length = cfg.burn_in :=
    if_neg (by omega)
  have hpost : (tr.drop (adjustedBurnIn cfg.burn_in tr.length)).length ≠ 0 := by
    rw [hadj, List.length_drop]
    omega
  have hsum := summarize_ok htr hpost (data.beta_true.getD (List.replicate cfg.p 0))
  rw [hadj] at hsum
  have hif : (if hasNaN (nanmeanMat (tr.drop cfg.burn_in)) then tr.getLastD []
      else nanmeanMat (tr.drop cfg.burn_in)) = nanmeanMat (tr.drop cfg.burn_in) :=
    if_neg (by simp [hnn])
  rw [hif] at hsum
  exact ⟨_, by unfold run_inference; exact hsum, rfl,
    transitive_reduction_list_reduced _⟩

/-- Witness for the amended C2 at a concrete one-sample trace. -/
theorem summary_mean_claim_amended_witness :
    ∃ out, run_inference
        (fun _ _ _ => (⟨some [[[some 1, some 0], [some 0, some 0]]], none, none,
          none, none⟩ : MCMCResult))
        ⟨none, none, none, none⟩ ⟨0, 0⟩ = Except.ok out ∧
      out.h = transitive_reduction_list (threshMat (nanmeanMat
        (([[[some 1, some 0], [some 0, some 0]]] : List HSample).drop 0))) ∧
      (∀ i j k, matOfList out.h i j ≠ 0 → matOfList out.h j k ≠ 0 →
        matOfList out.h i k = 0) :=
  summary_mean_claim_amended _ _ _ [[[some 1, some 0], [some 0, some 0]]]
    rfl (by decide) (by decide)

/-- C2 (counterexample).  The claim as stated — for every nonempty trace and
burn-in not exceeding its length the reported `h` equals the reduction of
the thresholded nanmean — fails on the code in two ways: when the mean
contains a missing value (the code falls back to the last raw sample), and
when the burn-in equals the trace length (the code truncates to the last
1000 samples instead of using the empty post-burn-in mean). -/
theorem summary_mean_claim_counterexample :
    ((0 : Nat) ≤ ([[[none, some 1], [some 0, some 0]],
        [[none, some 0], [some 0, some 0]]] : List HSample).length ∧
      ∃ out, run_inference
          (fun _ _ _ => (⟨some [[[none, some 1], [some 0, some 0]],
            [[none, some 0], [some 0, some 0]]], none, none, none, none⟩ : MCMCResult))
          ⟨none, none, none, none⟩ ⟨0, 0⟩ = Except.ok out ∧
        out.h ≠ transitive_reduction_list (threshMat (nanmeanMat
          (([[[none, some 1], [some 0, some 0]],
            [[none, some 0], [some 0, some 0]]] : List HSample).drop 0)))) ∧
    ((1 : Nat) ≤ ([[[some 0, some 1], [some 0, some 0]]] : List HSample).length ∧
      ∃ out, run_inference
          (fun _ _ _ => (⟨some [[[some 0, some 1], [some 0, some 0]]], none, none,
            none, none⟩ : MCMCResult))
          ⟨none, none, none, none⟩ ⟨0, 1⟩ = Except.ok out ∧
        out.h ≠ transitive_reduction_list (threshMat (nanmeanMat
          (([[[some 0, some 1], [some 0, some 0]]] : List HSample).drop 1)))) := by
  refine ⟨⟨by decide, ⟨_, rfl, of_decide_eq_true (by with_unfolding_all rfl)⟩⟩,
    ⟨by decide, ⟨_, rfl, of_decide_eq_true (by with_unfolding_all rfl)⟩⟩⟩

/-- C3.  Whenever the configured burn-in reaches or exceeds the length of a
nonempty `h_trace`, `run_inference` does not fail: it raises the warning
flag and produces the same final order as summarizing the last 1000 trace
samples (the whole trace when shorter) with no burn-in. -/
theorem burnin_fallback_last1000 (r : MCMCResult) (data : Dataset) (cfg : Config)
    (tr : List HSample) (htr : r.h_trace = some tr) (hne : tr ≠ [])
    (hb : tr.length ≤ cfg.burn_in) :
    ∃ out out', run_inference (fun _ _ _ => r) data cfg = Except.ok out ∧
      out.warnedBurnIn = true ∧
      summarize { r with h_trace := some (tr.drop (tr.length - 1000)) } 0
          (data.beta_true.getD (List.replicate cfg.p 0)) = Except.ok out' ∧
      out.h = out'.h := by
  have hlen : 0 < tr.length := List.length_pos.2 hne
  have hadj : adjustedBurnIn cfg.burn_in tr.length = tr.length - 1000 := if_pos hb
  have hpost := adjusted_post_ne hne cfg.burn_in
  have hsum := summarize_ok htr hpost (data.beta_true.getD (List.replicate cfg.p 0))
  rw [hadj] at hsum
  have hpost' : ((tr.drop (tr.length - 1000)).drop
      (adjustedBurnIn 0 (tr.drop (tr.length - 1000)).length)).length ≠ 0 := by
    unfold adjustedBurnIn
    rw [List.length_drop, List.length_drop]
    split <;> omega
  have hsum' := summarize_ok (r := { r with h_trace := some (tr.drop (tr.length - 1000)) })
    rfl hpost' (data.beta_true.getD (List.replicate cfg.p 0))
  have hadj' : adjustedBurnIn 0 (tr.drop (tr.length - 1000)).length = 0 := by
    unfold adjustedBurnIn
    rw [List.length_drop]
    split <;> omega
  rw [hadj', List.drop_zero] at hsum'
  have hlast : (tr.drop (tr.length - 1000)).getLastD [] = tr.getLastD [] :=
    getLastD_drop (by omega) []
  rw [hlast] at hsum'
  have hrun := hsum
  rw [show summarize r cfg.burn_in (data.beta_true.getD (List.replicate cfg.p 0)) =
    run_inference (fun _ _ _ => r) data cfg from rfl] at hrun
  exact ⟨_, _, hrun, by simp only [decide_eq_true_eq]; exact hb, hsum', rfl⟩

/-- Witness for C3 at a one-sample trace with burn-in `5`. -/
theorem burnin_fallback_last1000_witness :
    ∃ out out', run_inference
        (fun _ _ _ => (⟨some [[[some 0, some 1], [some 0, some 0]]], none, none,
          none, none⟩ : MCMCResult))
        ⟨none, none, none, none⟩ ⟨0, 5⟩ = Except.ok out ∧
      out.warnedBurnIn = true ∧
      summarize { (⟨some [[[some 0, some 1], [some 0, some 0]]], none, none,
          none, none⟩ : MCMCResult) with
          h_trace := some ((([[[some 0, some 1], [some 0, some 0]]] : List HSample)).drop
            (([[[some 0, some 1], [some 0, some 0]]] : List HSample).length - 1000)) } 0
          ((⟨none, none, none, none⟩ : Dataset).beta_true.getD (List.replicate 0 0)) =
        Except.ok out' ∧
      out.h = out'.h :=
  burnin_fallback_last1000 _ _ _ [[[some 0, some 1], [some 0, some 0]]] rfl
    (by decide) (by decide)

/-- C5.  For every MCMC result with a nonempty `h_trace`, when the
elementwise post-burn-in nanmean still contains a missing value,
`run_inference` raises the warning flag and summarizes the last trace sample
instead (thresholded and transitively reduced), and the reported matrix
contains only the entries `0` and `1` — never a missing value. -/
theorem nan_fallback_last_sample (r : MCMCResult) (data : Dataset) (cfg : Config)
    (tr : List HSample) (htr : r.h_trace = some tr) (hne : tr ≠ [])
    (hnan : hasNaN (nanmeanMat
      (tr.drop (adjustedBurnIn cfg.burn_in tr.length))) = true) :
    ∃ out, run_inference (fun _ _ _ => r) data cfg = Except.ok out ∧
      out.warnedNaN = true ∧
      out.h = transitive_reduction_list (threshMat (tr.getLastD [])) ∧
      (∀ row ∈ out.h, ∀ v ∈ row, v = 0 ∨ v = 1) := by
  have hpost := adjusted_post_ne hne cfg.burn_in
  have hsum := summarize_ok htr hpost (data.beta_true.getD (List.replicate cfg.p 0))
  have hif : (if hasNaN (nanmeanMat (tr.drop (adjustedBurnIn cfg.burn_in tr.length)))
      then tr.getLastD []
      else nanmeanMat (tr.drop (adjustedBurnIn cfg.burn_in tr.length))) =
        tr.getLastD [] := if_pos hnan
  rw [hif, hnan] at hsum
  exact ⟨_, by unfold run_inference; exact hsum, rfl, rfl,
    transitive_reduction_list_val _⟩

/-- Witness for C5 at a two-sample trace whose `(0,0)` entry is missing in
every sample. -/
theorem nan_fallback_last_sample_witness :
    ∃ out, run_inference
        (fun _ _ _ => (⟨some [[[none, some 1], [some 0, some 0]],
          [[none, some 0], [some 0, some 0]]], none, none, none, none⟩ : MCMCResult))
        ⟨none, none, none, none⟩ ⟨0, 0⟩ = Except.ok out ∧
      out.warnedNaN = true ∧
      out.h = transitive_reduction_list (threshMat
        (([[[none, some 1], [some 0, some 0]],
          [[none, some 0], [some 0, some 0]]] : List HSample).getLastD [])) ∧
      (∀ row ∈ out.h, ∀ v ∈ row, v = 0 ∨ v = 1) :=
  nan_fallback_last_sample _ _ _
    [[[none, some 1], [some 0, some 0]], [[none, some 0], [some 0, some 0]]]
    rfl (by decide) (by decide)

/-- C6.  Whenever `Z_trace`, `rho_trace` and `prob_noise_trace` are present
and nonempty, the point estimates of any record returned by `run_inference`
are the last elements of those traces. -/
theorem point_estimates_last (r : MCMCResult) (data : Dataset) (cfg : Config)
    (Zt : List QMat) (rt pt : List ℚ)
    (hZ : r.Z_trace = some Zt) (hZne : Zt ≠ [])
    (hr : r.rho_trace = some rt) (hrne : rt ≠ [])
    (hp : r.prob_noise_trace = some pt) (hpne : pt ≠ []) :
    ∀ out, run_inference (fun _ _ _ => r) data cfg = Except.ok out →
      out.Z = Zt.getLast hZne ∧ out.rho = rt.getLast hrne ∧
        out.prob_noise = pt.getLast hpne := by
  intro out hout
  obtain ⟨ht, Zt', rt', pt', mt⟩ := r
  simp only at hZ hr hp
  subst hZ
  subst hr
  subst hp
  unfold run_inference summarize at hout
  cases ht with
  | none =>
    simp only at hout
    injection hout with hout
    subst hout
    exact ⟨getLastD_eq_getLast hZne [], getLastD_eq_getLast hrne 0,
      getLastD_eq_getLast hpne 0⟩
  | some tr =>
    simp only at hout
    by_cases hc : (tr.drop (adjustedBurnIn cfg.burn_in tr.length)).length = 0
    · rw [if_pos hc] at hout
      exact absurd hout (by simp)
    · rw [if_neg hc] at hout
      injection hout with hout
      subst hout
      exact ⟨getLastD_eq_getLast hZne [], getLastD_eq_getLast hrne 0,
        getLastD_eq_getLast hpne 0⟩

/-- Witness for C6 at a concrete record with one-element traces. -/
theorem point_estimates_last_witness :
    ∃ out, run_inference
        (fun _ _ _ => (⟨some [[[some 0, some 0], [some 0, some 0]]],
          some [[[1, 2]]], some [mkRat 1 2], some [mkRat 1 4], none⟩ : MCMCResult))
        ⟨none, none, none, none⟩ ⟨0, 0⟩ = Except.ok out ∧
      (out.Z = ([[[1, 2]]] : List QMat).getLast (by decide) ∧
        out.rho = ([mkRat 1 2] : List ℚ).getLast (by decide) ∧
        out.prob_noise = ([mkRat 1 4] : List ℚ).getLast (by decide)) :=
  ⟨_, rfl, point_estimates_last
    (⟨some [[[some 0, some 0], [some 0, some 0]]], some [[[1, 2]]],
      some [mkRat 1 2], some [mkRat 1 4], none⟩ : MCMCResult)
    ⟨none, none, none, none⟩ ⟨0, 0⟩ [[[1, 2]]] [mkRat 1 2] [mkRat 1 4]
    rfl (by decide) rfl (by decide) rfl (by decide) _ rfl⟩

/-- C8.  Absent `total_orders` and/or `subsets` keys are defaulted to empty
lists: `run_inference` behaves identically (for every MCMC simulation) to a
dataset carrying explicit empty lists, rather than failing. -/
theorem missing_keys_default_empty
    (mcmc : List (List Nat) → List (List (List Nat)) → List ℚ → MCMCResult)
    (tor : Option (List (List Nat))) (sub : Option (List (List (List Nat))))
    (bt : Option (List ℚ)) (X : Option QMat) (cfg : Config) :
    run_inference mcmc ⟨none, sub, bt, X⟩ cfg =
      run_inference mcmc ⟨some [], sub, bt, X⟩ cfg ∧
    run_inference mcmc ⟨tor, none, bt, X⟩ cfg =
      run_inference mcmc ⟨tor, some [], bt, X⟩ cfg ∧
    run_inference mcmc ⟨none, none, bt, X⟩ cfg =
      run_inference mcmc ⟨some [], some [], bt, X⟩ cfg :=
  ⟨rfl, rfl, rfl⟩

/-- Witness for C8 at a concrete MCMC stub and empty configuration. -/
theorem missing_keys_default_empty_witness :
    run_inference (fun _ _ _ => (⟨none, none, none, none, none⟩ : MCMCResult))
        ⟨none, none, none, none⟩ ⟨0, 0⟩ =
      run_inference (fun _ _ _ => (⟨none, none, none, none, none⟩ : MCMCResult))
        ⟨some [], some [], none, none⟩ ⟨0, 0⟩ :=
  (missing_keys_default_empty (fun _ _ _ => (⟨none, none, none, none, none⟩ : MCMCResult))
    none none none none ⟨0, 0⟩).2.2

/-- C9.  The `beta` point estimate of any record returned by `run_inference`
is copied from the input dataset — `parameters.beta_true` when present and a
zero vector of length `covariates.p` otherwise — independently of the MCMC
simulation and its traces. -/
theorem beta_copied_from_input
    (mcmc : List (List Nat) → List (List (List Nat)) → List ℚ → MCMCResult)
    (data : Dataset) (cfg : Config) :
    ∀ out, run_inference mcmc data cfg = Except.ok out →
      out.beta = data.beta_true.getD (List.replicate cfg.p 0) := by
  intro out hout
  unfold run_inference summarize at hout
  simp only at hout
  rcases hcase : (mcmc (data.total_orders.getD []) (data.subsets.getD [])
      ((data.X.getD (List.replicate (data.total_orders.getD []).length
        (List.replicate cfg.p 0))).map fun row =>
          (List.zipWith (fun a b => a * b) row
            (data.beta_true.getD (List.replicate cfg.p 0))).sum)).h_trace
    with _ | tr <;> rw [hcase] at hout <;> simp only at hout
  · injection hout with hout
    subst hout
    rfl
  · by_cases hc : (tr.drop (adjustedBurnIn cfg.burn_in tr.length)).length = 0
    · rw [if_pos hc] at hout
      exact absurd hout (by simp)
    · rw [if_neg hc] at hout
      injection hout with hout
      subst hout
      rfl

/-- Witness for C9 at a concrete dataset with an explicit `beta_true`. -/
theorem beta_copied_from_input_witness :
    ∃ out, run_inference
        (fun _ _ _ => (⟨some [[[some 0, some 0], [some 0, some 0]]], none, none,
          none, none⟩ : MCMCResult))
        ⟨none, none, some [mkRat 3 1], none⟩ ⟨1, 0⟩ = Except.ok out ∧
      out.beta = (⟨none, none, some [mkRat 3 1], none⟩ : Dataset).beta_true.getD
        (List.replicate 1 0) :=
  ⟨_, rfl, beta_copied_from_input
    (fun _ _ _ => (⟨some [[[some 0, some 0], [some 0, some 0]]], none, none,
      none, none⟩ : MCMCResult))
    ⟨none, none, some [mkRat 3 1], none⟩ ⟨1, 0⟩ _ rfl⟩

end Summarization

section CriticalPairs

variable {α : Type}

/-- Embeds `KDimensionUtils.find_critical_pairs` (file
`src/utils/k_dimension.py`): iterate `i` over all positions and `j` over the
positions after `i`, and collect the item pair whenever neither `h i j` nor
`h j i` is set. -/
def find_critical_pairs (items : List α) (h : Mat) : List (α × α) :=
  (List.range items.length).flatMap fun i =>
    (List.range' (i + 1) (items.length - (i + 1))).filterMap fun j =>
      if h i j = 0 ∧ h j i = 0 then
        match items[i]?, items[j]? with
        | some a, some b => some (a, b)
        | _, _ => none
      else none

theorem critPair_inner_eq {items : List α} {h : Mat} {i j : Nat} {p : α × α}
    (hval : (if h i j = 0 ∧ h j i = 0 then
        match items[i]?, items[j]? with
        | some a, some b => some (a, b)
        | _, _ => none
      else none) = some p) :
    h i j = 0 ∧ h j i = 0 ∧ items[i]? = some p.1 ∧ items[j]? = some p.2 := by
  by_cases hc : h i j = 0 ∧ h j i = 0
  · rw [if_pos hc] at hval
    rcases hx : items[i]? with _ | x <;> rw [hx] at hval
    · exact absurd hval (by simp)
    · rcases hy : items[j]? with _ | y <;> rw [hy] at hval
      · exact absurd hval (by simp)
      · injection hval with hval
        subst hval
        exact ⟨hc.1, hc.2, rfl, rfl⟩
  · rw [if_neg hc] at hval
    exact absurd hval (by simp)

theorem critPair_inner_of {items : List α} {h : Mat} {i j : Nat} {a b : α}
    (h1 : h i j = 0) (h2 : h j i = 0) (hx : items[i]? = some a)
    (hy : items[j]? = some b) :
    (if h i j = 0 ∧ h j i = 0 then
        match items[i]?, items[j]? with
        | some a, some b => some (a, b)
        | _, _ => none
      else none) = some (a, b) := by
  rw [if_pos ⟨h1, h2⟩, hx, hy]

/-- C7.  `find_critical_pairs items h` returns exactly the pairs
`(items[i], items[j])` of incomparable positions `i < j` (neither `h i j`
nor `h j i` set), and — over duplicate-free items — each such pair appears
exactly once. -/
theorem find_critical_pairs_spec (items : List α) (h : Mat) :
    (∀ a b : α, ((a, b) ∈ find_critical_pairs items h ↔
      ∃ i j, i < j ∧ j < items.length ∧ h i j = 0 ∧ h j i = 0 ∧
        items[i]? = some a ∧ items[j]? = some b)) ∧
    (items.Nodup → (find_critical_pairs items h).Nodup) := by
  constructor
  · intro a b
    unfold find_critical_pairs
    rw [List.mem_flatMap]
    constructor
    · rintro ⟨i, hi, hmem⟩
      rw [List.mem_filterMap] at hmem
      obtain ⟨j, hj, hval⟩ := hmem
      rw [List.mem_range] at hi
      rw [List.mem_range'_1] at hj
      obtain ⟨hc1, hc2, hx, hy⟩ := critPair_inner_eq hval
      exact ⟨i, j, by omega, by omega, hc1, hc2, hx, hy⟩
    · rintro ⟨i, j, hij, hj, h1, h2, hx, hy⟩
      have hi : i < items.length := by omega
      refine ⟨i, List.mem_range.2 hi, ?_⟩
      rw [List.mem_filterMap]
      exact ⟨j, List.mem_range'_1.2 ⟨by omega, by omega⟩, critPair_inner_of h1 h2 hx hy⟩
  · intro hnd
    unfold find_critical_pairs
    rw [List.nodup_flatMap]
    constructor
    · intro i _
      refine List.Nodup.filterMap ?_ (List.nodup_range' (i + 1) _)
      intro j j' p hp hp'
      obtain ⟨-, -, -, hy⟩ := critPair_inner_eq hp
      obtain ⟨-, -, -, hy'⟩ := critPair_inner_eq hp'
      have hjl : j < items.length := by
        by_contra hge
        rw [List.getElem?_eq_none (by omega)] at hy
        exact absurd hy (by simp)
      refine List.getElem?_inj hjl hnd ?_
      rw [hy, hy']
    · refine (List.pairwise_lt_range items.length).imp ?_
      intro i i' hii' p hp hp'
      rw [List.mem_filterMap] at hp hp'
      obtain ⟨j, -, hval⟩ := hp
      obtain ⟨j', -, hval'⟩ := hp'
      obtain ⟨-, -, hx, -⟩ := critPair_inner_eq hval
      obtain ⟨-, -, hx', -⟩ := critPair_inner_eq hval'
      have hil : i < items.length := by
        by_contra hge
        rw [List.getElem?_eq_none (by omega)] at hx
        exact absurd hx (by simp)
      have : i = i' := by
        refine List.getElem?_inj hil hnd ?_
        rw [hx, hx']
      omega

/-- Witness for C7 on a two-item list with the everywhere-zero relation. -/
theorem find_critical_pairs_spec_witness :
    ((0, 1) ∈ find_critical_pairs ([0, 1] : List Nat) (fun _ _ => 0) ↔
      ∃ i j, i < j ∧ j < ([0, 1] : List Nat).length ∧ (0 : Nat) = 0 ∧ (0 : Nat) = 0 ∧
        ([0, 1] : List Nat)[i]? = some 0 ∧ ([0, 1] : List Nat)[j]? = some 1) ∧
    (find_critical_pairs ([0, 1] : List Nat) (fun _ _ => 0)).Nodup :=
  ⟨(find_critical_pairs_spec ([0, 1] : List Nat) (fun _ _ => 0)).1 0 1,
    (find_critical_pairs_spec ([0, 1] : List Nat) (fun _ _ => 0)).2 (by decide)⟩

end CriticalPairs

section RealizerInvariants

variable {α : Type} [DecidableEq α]

theorem realizerMatrix_ne_bounds {realizer : List (List α)} {items : List α}
    {i j : Nat} (h : realizerMatrix realizer items i j ≠ 0) :
    i < items.length ∧ j < items.length := by
  obtain ⟨x, y, hx, hy, -, -⟩ := realizerMatrix_ne_elim h
  constructor
  · by_contra hge
    rw [List.getElem?_eq_none (by omega)] at hx
    exact absurd hx (by simp)
  · by_contra hge
    rw [List.getElem?_eq_none (by omega)] at hy
    exact absurd hy (by simp)

/-- C10 (counterexample).  With an empty realizer and the nonempty one-item
list `["x"]` the produced matrix is antisymmetric — no pair of entries
`(i, j)` and `(j, i)` is ever simultaneously set — contradicting the claim
that the empty-realizer matrix over a nonempty item list is not
antisymmetric. -/
theorem realizer_matrix_claim_counterexample :
    (["x"] : List String) ≠ [] ∧
    (∀ i j, realizerMatrix ([] : List (List String)) ["x"] i j = 0 ∨
      realizerMatrix ([] : List (List String)) ["x"] j i = 0) := by
  refine ⟨by decide, ?_⟩
  intro i j
  rcases realizerMatrix_val ([] : List (List String)) ["x"] i j with h0 | h1
  · exact Or.inl h0
  · exfalso
    have hne : realizerMatrix ([] : List (List String)) ["x"] i j ≠ 0 := by
      rw [h1]
      exact one_ne_zero
    obtain ⟨hi, hj⟩ := realizerMatrix_ne_bounds hne
    obtain ⟨x, y, -, -, hij, -⟩ := realizerMatrix_ne_elim hne
    simp only [List.length_singleton] at hi hj
    omega

/-- C10 (amended).  For every nonempty realizer whose extensions contain all
items, the matrix has zero diagonal and is antisymmetric; for an empty
realizer over an item list with at least two items, every in-window
off-diagonal entry is `1` and the matrix is not antisymmetric. -/
theorem realizer_matrix_invariants_amended :
    (∀ (realizer : List (List α)) (items : List α), realizer ≠ [] →
      (∀ e ∈ realizer, ∀ x ∈ items, x ∈ e) →
      (∀ i, realizerMatrix realizer items i i = 0) ∧
      (∀ i j, realizerMatrix realizer items i j = 0 ∨
        realizerMatrix realizer items j i = 0)) ∧
    (∀ items : List α, 2 ≤ items.length →
      (∀ i j, i < items.length → j < items.length → i ≠ j →
        realizerMatrix ([] : List (List α)) items i j = 1) ∧
      ¬ (∀ i j, realizerMatrix ([] : List (List α)) items i j = 0 ∨
          realizerMatrix ([] : List (List α)) items j i = 0)) := by
  constructor
  · intro realizer items hne _
    refine ⟨realizerMatrix_diag realizer items, ?_⟩
    intro i j
    by_cases h1 : realizerMatrix realizer items i j = 0
    · exact Or.inl h1
    · rcases realizerMatrix_val realizer items j i with h0 | h1'
      · exact Or.inr h0
      · exfalso
        obtain ⟨x, y, hx, hy, -, hall⟩ := realizerMatrix_ne_elim h1
        have hne' : realizerMatrix realizer items j i ≠ 0 := by
          rw [h1']
          exact one_ne_zero
        obtain ⟨y', x', hy', hx', -, hall'⟩ := realizerMatrix_ne_elim hne'
        rw [hy] at hy'
        injection hy' with hy'
        subst hy'
        rw [hx] at hx'
        injection hx' with hx'
        subst hx'
        obtain ⟨e₀, he₀⟩ := List.exists_mem_of_ne_nil realizer hne
        have ha := hall e₀ he₀
        have hb := hall' e₀ he₀
        omega
  · intro items h2
    have hentry : ∀ i j, i < items.length → j < items.length → i ≠ j →
        realizerMatrix ([] : List (List α)) items i j = 1 := by
      intro i j hi hj hij
      refine realizerMatrix_eq_one (List.getElem?_eq_getElem hi)
        (List.getElem?_eq_getElem hj) hij ?_
      intro e he
      exact absurd he (List.not_mem_nil e)
    refine ⟨hentry, ?_⟩
    intro hanti
    rcases hanti 0 1 with h | h
    · rw [hentry 0 1 (by omega) (by omega) (by omega)] at h
      exact absurd h one_ne_zero
    · rw [hentry 1 0 (by omega) (by omega) (by omega)] at h
      exact absurd h one_ne_zero

/-- Witness for the amended C10 at concrete two-item realizers. -/
theorem realizer_matrix_invariants_amended_witness :
    ((∀ i, realizerMatrix ([["x", "y"], ["y", "x"]] : List (List String))
        ["x", "y"] i i = 0) ∧
      (∀ i j, realizerMatrix ([["x", "y"], ["y", "x"]] : List (List String))
          ["x", "y"] i j = 0 ∨
        realizerMatrix ([["x", "y"], ["y", "x"]] : List (List String))
          ["x", "y"] j i = 0)) ∧
    ¬ (∀ i j, realizerMatrix ([] : List (List String)) ["x", "y"] i j = 0 ∨
        realizerMatrix ([] : List (List String)) ["x", "y"] j i = 0) :=
  ⟨(realizer_matrix_invariants_amended.1 [["x", "y"], ["y", "x"]] ["x", "y"]
      (by decide) (by decide)),
    (realizer_matrix_invariants_amended.2 ["x", "y"] (by decide)).2⟩

end RealizerInvariants

end POInf
